import Mathlib

/-
Verification of the i18n-report localization-maintenance CLI.

The Go sources are embedded shallowly: strings are Lean `String`s, Go maps
over string keys become association lists or explicit lookup functions,
`strings.Builder` output becomes ordinary string concatenation, and file
system effects are made explicit (a function returns the would-be file
contents instead of writing them).  String order is the byte order Go's
`sort.Strings` / `<` use; on UTF-8 encoded strings byte order coincides
with code-point order, which is what `charListLtB` below implements.
-/

set_option maxHeartbeats 1000000

/-! ## Characters, byte order, basic string helpers -/

def charLtB (a b : Char) : Bool := decide (a < b)

/-- Lexicographic (byte) order on strings, as Go compares strings. -/
def charListLtB : List Char → List Char → Bool
  | _, [] => false
  | [], _ :: _ => true
  | a :: as, b :: bs =>
    if charLtB a b then true
    else if charLtB b a then false
    else charListLtB as bs

def strLtB (a b : String) : Bool := charListLtB a.data b.data

def strLeB (a b : String) : Bool := not (strLtB b a)

theorem charListLtB_cons (a b : Char) (as bs : List Char) :
    charListLtB (a :: as) (b :: bs) =
      if a < b then true else if b < a then false else charListLtB as bs := by
  by_cases h1 : a < b
  · simp [charListLtB, charLtB, h1]
  · by_cases h2 : b < a
    · simp [charListLtB, charLtB, h1, h2]
    · simp [charListLtB, charLtB, h1, h2]

theorem charListLtB_irrefl : ∀ a, charListLtB a a = false := by
  intro a
  induction a with
  | nil => rfl
  | cons c cs ih => rw [charListLtB_cons]; simp [lt_irrefl, ih]

theorem charListLtB_asymm : ∀ a b, charListLtB a b = true → charListLtB b a = false := by
  intro a
  induction a with
  | nil =>
    intro b h
    cases b with
    | nil => simp [charListLtB] at h
    | cons c cs => rfl
  | cons c cs ih =>
    intro b h
    cases b with
    | nil => simp [charListLtB] at h
    | cons d ds =>
      rw [charListLtB_cons] at h
      rw [charListLtB_cons]
      rcases lt_trichotomy c d with h1 | h1 | h1
      · simp [h1, asymm h1]
      · subst h1
        simp only [lt_irrefl, if_false] at h ⊢
        exact ih ds h
      · simp [h1, asymm h1] at h

theorem charListLtB_antisymm :
    ∀ a b, charListLtB a b = false → charListLtB b a = false → a = b := by
  intro a
  induction a with
  | nil =>
    intro b hab _
    cases b with
    | nil => rfl
    | cons d ds => simp [charListLtB] at hab
  | cons c cs ih =>
    intro b hab hba
    cases b with
    | nil => simp [charListLtB] at hba
    | cons d ds =>
      rw [charListLtB_cons] at hab
      rw [charListLtB_cons] at hba
      rcases lt_trichotomy c d with h1 | h1 | h1
      · simp [h1] at hab
      · subst h1
        simp only [lt_irrefl, if_false] at hab hba
        rw [ih ds hab hba]
      · simp [h1] at hba

theorem charListLtB_trans :
    ∀ a b c, charListLtB a b = true → charListLtB b c = true → charListLtB a c = true := by
  intro a
  induction a with
  | nil =>
    intro b c hab hbc
    cases c with
    | nil =>
      cases b with
      | nil => simp [charListLtB] at hab
      | cons d ds => simp [charListLtB] at hbc
    | cons e es => rfl
  | cons x xs ih =>
    intro b c hab hbc
    cases b with
    | nil => simp [charListLtB] at hab
    | cons y ys =>
      cases c with
      | nil => simp [charListLtB] at hbc
      | cons z zs =>
        rw [charListLtB_cons] at hab hbc
        rw [charListLtB_cons]
        rcases lt_trichotomy x y with h1 | h1 | h1
        · rcases lt_trichotomy y z with h2 | h2 | h2
          · simp [lt_trans h1 h2]
          · subst h2; simp [h1]
          · simp [h2, asymm h2] at hbc
        · subst h1
          simp only [lt_irrefl, if_false] at hab
          rcases lt_trichotomy x z with h2 | h2 | h2
          · simp [h2]
          · subst h2
            simp only [lt_irrefl, if_false] at hbc ⊢
            exact ih ys zs hab hbc
          · simp [h2, asymm h2] at hbc
        · simp [h1, asymm h1] at hab

theorem strLtB_antisymm (a b : String) (h1 : strLtB a b = false) (h2 : strLtB b a = false) :
    a = b := by
  cases a with
  | mk da =>
    cases b with
    | mk db =>
      have : da = db := charListLtB_antisymm da db h1 h2
      rw [this]

theorem strLeB_total (a b : String) : strLeB a b = true ∨ strLeB b a = true := by
  by_cases h : strLtB b a = true
  · right
    have := charListLtB_asymm b.data a.data h
    simp [strLeB, strLtB, this]
  · left
    simp [strLeB, strLtB] at h ⊢
    exact h

theorem strLeB_trans (a b c : String) (h1 : strLeB a b = true) (h2 : strLeB b c = true) :
    strLeB a c = true := by
  simp only [strLeB, strLtB, Bool.not_eq_true', Bool.not_eq_false] at h1 h2 ⊢
  by_cases h : charListLtB c.data a.data = true
  · by_cases hba : charListLtB b.data a.data = true
    · rw [hba] at h1; exact absurd h1 (by simp)
    · by_cases hcb : charListLtB c.data b.data = true
      · rw [hcb] at h2; exact absurd h2 (by simp)
      · simp only [Bool.not_eq_true] at hba hcb
        have hab : a.data = b.data ∨ charListLtB a.data b.data = true := by
          by_cases hx : charListLtB a.data b.data = true
          · right; exact hx
          · left
            exact charListLtB_antisymm a.data b.data (by simpa using hx) hba
        have hbc : b.data = c.data ∨ charListLtB b.data c.data = true := by
          by_cases hx : charListLtB b.data c.data = true
          · right; exact hx
          · left
            exact charListLtB_antisymm b.data c.data (by simpa using hx) hcb
        cases hab with
        | inl he =>
          cases hbc with
          | inl he2 =>
            rw [he, he2] at h
            rw [charListLtB_irrefl c.data] at h
            exact absurd h (by simp)
          | inr hlt =>
            rw [he] at h
            have := charListLtB_asymm b.data c.data hlt
            rw [this] at h
            exact absurd h (by simp)
        | inr hlt =>
          cases hbc with
          | inl he2 =>
            rw [he2] at hlt
            have := charListLtB_asymm a.data c.data hlt
            rw [this] at h
            exact absurd h (by simp)
          | inr hlt2 =>
            have := charListLtB_trans a.data b.data c.data hlt hlt2
            have := charListLtB_asymm a.data c.data this
            rw [this] at h
            exact absurd h (by simp)
  · simp only [Bool.not_eq_true] at h
    exact h

/-- Split a character list at every occurrence of `sep` (the list analogue of
Go's `strings.Split`). -/
def splitCharOn (sep : Char) : List Char → List Char → List (List Char)
  | [], acc => [acc.reverse]
  | c :: cs, acc =>
    if c = sep then acc.reverse :: splitCharOn sep cs [] else splitCharOn sep cs (c :: acc)

/-- `strings.Split(s, ".")`. -/
def splitDot (s : String) : List String := (splitCharOn '.' s.data []).map String.mk

/-- `strings.Split(s, "\n")`. -/
def splitNl (s : String) : List String := (splitCharOn '\n' s.data []).map String.mk

/-- `strings.Repeat("  ", n)`: the indentation for nesting depth `n`. -/
def indentStr (n : Nat) : String := String.mk (List.replicate (2 * n) ' ')

/-- Bool substring containment at character level (Go `strings.Contains`). -/
def leadChars : List Char → List Char → Bool
  | [], _ => true
  | _ :: _, [] => false
  | a :: as, b :: bs => if a = b then leadChars as bs else false

def containsSub : List Char → List Char → Bool
  | hay, needle =>
    if leadChars needle hay then true
    else
      match hay with
      | [] => false
      | _ :: t => containsSub t needle

/-! ## The merge entry data model and entry sorting (part_008) -/

/-- `mergeEntry` from report_merge.go: a translated key-value pair with an
optional attached comment block (lines joined with a newline). -/
structure mergeEntry where
  key : String
  value : String
  comment : String
deriving DecidableEq

/-- Insertion sort by `key` in byte order: the effect of
`sort.Slice(entries, entries[i].key < entries[j].key)` (unique for
duplicate-free key lists, which is the case bound below). -/
def insertEntry (e : mergeEntry) : List mergeEntry → List mergeEntry
  | [] => [e]
  | f :: fs => if strLeB e.key f.key then e :: f :: fs else f :: insertEntry e fs

def sortEntries : List mergeEntry → List mergeEntry
  | [] => []
  | e :: es => insertEntry e (sortEntries es)

theorem insertEntry_perm (e : mergeEntry) (l : List mergeEntry) :
    (insertEntry e l).Perm (e :: l) := by
  induction l with
  | nil => exact List.Perm.refl _
  | cons f fs ih =>
    simp only [insertEntry]
    by_cases h : strLeB e.key f.key = true
    · rw [if_pos h]
    · rw [if_neg h]
      exact ((ih.cons f).trans (List.Perm.swap e f fs))

theorem sortEntries_perm (l : List mergeEntry) : (sortEntries l).Perm l := by
  induction l with
  | nil => exact List.Perm.refl _
  | cons e es ih =>
    exact (insertEntry_perm e (sortEntries es)).trans (ih.cons e)

def entryLe (a b : mergeEntry) : Prop := strLeB a.key b.key = true

theorem insertEntry_sorted (e : mergeEntry) (l : List mergeEntry)
    (h : l.Pairwise entryLe) : (insertEntry e l).Pairwise entryLe := by
  induction l with
  | nil => simp [insertEntry, List.Pairwise]
  | cons f fs ih =>
    simp only [insertEntry]
    by_cases hef : strLeB e.key f.key = true
    · rw [if_pos hef]
      refine List.Pairwise.cons ?_ h
      intro x hx
      cases hx with
      | head => exact hef
      | tail _ hmem =>
        rcases List.pairwise_cons.mp h with ⟨hf, _⟩
        exact strLeB_trans _ _ _ hef (hf x hmem)
    · rw [if_neg hef]
      rcases List.pairwise_cons.mp h with ⟨hf, hfs⟩
      refine List.Pairwise.cons ?_ (ih hfs)
      intro x hx
      have hx' := (insertEntry_perm e fs).mem_iff.mp hx
      cases hx' with
      | head =>
        cases strLeB_total e.key f.key with
        | inl hle => exact absurd hle hef
        | inr hle => exact hle
      | tail _ hmem => exact hf x hmem

theorem sortEntries_sorted (l : List mergeEntry) : (sortEntries l).Pairwise entryLe := by
  induction l with
  | nil => simp [sortEntries]
  | cons e es ih => exact insertEntry_sorted e (sortEntries es) ih

/-- Two permuted entry lists with the same duplicate-free key set sort to the
same list. -/
theorem sortEntries_eq_of_perm (l l' : List mergeEntry) (hperm : l.Perm l')
    (hnd : (l.map mergeEntry.key).Nodup) : sortEntries l = sortEntries l' := by
  apply @List.Perm.eq_of_sorted mergeEntry entryLe
  · intro a b ha hb hab hba
    have ha' : a ∈ l := (sortEntries_perm l).mem_iff.mp ha
    have hb' : b ∈ l := hperm.mem_iff.mpr ((sortEntries_perm l').mem_iff.mp hb)
    have hkey : a.key = b.key := by
      by_cases h1 : strLtB a.key b.key = true
      · exact absurd h1 (by simp [entryLe, strLeB] at hba; simp [hba])
      · by_cases h2 : strLtB b.key a.key = true
        · exact absurd h2 (by simp [entryLe, strLeB] at hab; simp [hab])
        · exact strLtB_antisymm a.key b.key (by simpa using h1) (by simpa using h2)
    exact List.inj_on_of_nodup_map hnd ha' hb' hkey
  · exact sortEntries_sorted l
  · exact sortEntries_sorted l'
  · exact (sortEntries_perm l).trans (hperm.trans (sortEntries_perm l').symm)

/-! ## Scalar quoting (part_008 `yamlScalar`; the library marshal is modelled) -/

def lowerChar (c : Char) : Char :=
  if 'A' ≤ c ∧ c ≤ 'Z' then Char.ofNat (c.toNat + 32) else c

def lowerStr (s : String) : String := String.mk (s.data.map lowerChar)

def isDigitCh (c : Char) : Bool := decide ('0' ≤ c) && decide (c ≤ '9')

def numericBody : List Char → Bool → Bool
  | [], _ => true
  | c :: cs, seenDot =>
    if isDigitCh c then numericBody cs seenDot
    else if c = '.' && not seenDot then numericBody cs true
    else false

/-- A string the YAML emitter would read back as a number. -/
def isNumericStr (s : String) : Bool :=
  let l := match s.data with
    | '-' :: rest => rest
    | l => l
  not l.isEmpty && l.any isDigitCh && numericBody l false

def yamlReservedWords : List String :=
  ["yes", "no", "true", "false", "on", "off", "null", "~"]

def yamlSpecialLead : List Char :=
  ['-', '?', ':', ',', '[', ']', '{', '}', '#', '&', '*', '!', '|', '>', '%', '@', '"', '\'']

/-- Does the plain (unquoted) form of `s` risk being misread by a YAML
parser?  Booleans, null aliases, numbers, a colon-space sequence,
leading/trailing whitespace and special leading characters force quotes;
an embedded brace alone does not. -/
def needsQuote (s : String) : Bool :=
  yamlReservedWords.contains (lowerStr s)
  || isNumericStr s
  || containsSub s.data (':' :: [' '])
  || (s.data.headD 'x') = ' '
  || (s.data.getLastD 'x') = ' '
  || yamlSpecialLead.contains (s.data.headD 'x')
  || s.data.contains '\n'

def squote (s : String) : String :=
  "'" ++ String.mk (s.data.flatMap (fun c => if c = '\'' then ['\'', '\''] else [c])) ++ "'"

/-- Modelled from the spec: the scalar emission of the external YAML library
(`yaml.Marshal` in gopkg.in/yaml.v3, which is not part of this repository's
sources).  Per spec §4.2 the result is plain whenever that is unambiguous,
single-quoted (doubling embedded single quotes) when the plain form would be
misread, and a block scalar for strings containing newlines. -/
def yamlMarshalScalar (s : String) : String :=
  if s.data.contains '\n' then
    String.intercalate "\n" ("|-" :: (splitNl s).map (fun l => "    " ++ l))
  else if needsQuote s then squote s
  else s

def trimRightNl (s : String) : String :=
  String.mk ((s.data.reverse.dropWhile (fun c => c = '\n')).reverse)

/-- part_008 `yamlScalar`: empty string is the two-character `''` token,
otherwise delegate to the marshal model and trim the trailing newline.
(The Marshal error branch cannot occur for plain strings.) -/
def yamlScalar (s : String) : String :=
  if s = "" then "''" else trimRightNl (yamlMarshalScalar s)

/-- C8: the scalar quoting function satisfies the spec's boundary cases:
`yamlScalar ""` is the two-character token `''`; each of "yes", "true",
"null" and "123" is quoted rather than emitted plain; "key: value" becomes
the single-quoted form; and a string is not quoted merely for containing a
brace. -/
theorem yamlScalar_boundary_cases :
    yamlScalar "" = "''"
    ∧ yamlScalar "yes" ≠ "yes"
    ∧ yamlScalar "true" ≠ "true"
    ∧ yamlScalar "null" ≠ "null"
    ∧ yamlScalar "123" ≠ "123"
    ∧ yamlScalar "yes" = squote "yes"
    ∧ yamlScalar "true" = squote "true"
    ∧ yamlScalar "null" = squote "null"
    ∧ yamlScalar "123" = squote "123"
    ∧ yamlScalar "key: value" = "'key: value'"
    ∧ yamlScalar "has {var}" = "has {var}" := by
  decide

/-! ## writeNestedYAML (part_008): source embedding -/

def strConcat : List String → String
  | [] => ""
  | s :: rest => s ++ strConcat rest

theorem String.append_data (a b : String) : (a ++ b).data = a.data ++ b.data := rfl

theorem strConcat_append (l1 l2 : List String) :
    strConcat (l1 ++ l2) = strConcat l1 ++ strConcat l2 := by
  induction l1 with
  | nil =>
    show strConcat l2 = "" ++ strConcat l2
    cases strConcat l2 with
    | mk d => rfl
  | cons s rest ih =>
    show s ++ strConcat (rest ++ l2) = (s ++ strConcat rest) ++ strConcat l2
    rw [ih]
    cases s with
    | mk ds =>
      cases strConcat rest with
      | mk dr =>
        cases strConcat l2 with
        | mk dl =>
          show String.mk (ds ++ (dr ++ dl)) = String.mk ((ds ++ dr) ++ dl)
          rw [List.append_assoc]

/-- The `common` loop of writeNestedYAML: first index `< maxParent` where the
segment lists disagree (`maxParent` itself if none). -/
def commonLoop (parts prev : List String) (maxParent : Nat) (j : Nat) : Nat :=
  if j < maxParent then
    if parts.getD j "" = prev.getD j "" then commonLoop parts prev maxParent (j + 1)
    else j
  else j
termination_by maxParent - j

/-- The computation of `common` in writeNestedYAML (with Go's `-1` sentinel
for an empty previous path subsumed by truncated Nat subtraction). -/
def goCommonLen (parts prev : List String) : Nat :=
  commonLoop parts prev (min (parts.length - 1) (prev.length - 1)) 0

/-- Block-scalar re-indentation branch of writeNestedYAML: the first line is
the block indicator, body lines are stripped of leading spaces and
re-indented two spaces past the leaf's indent; blank body lines stay blank. -/
def blockText (ind : String) : List String → String
  | [] => ""
  | l0 :: rest =>
    l0 ++ "\n" ++ strConcat (rest.map (fun line =>
      let t := String.mk (line.data.dropWhile (fun c => c = ' '))
      if t = "" then "\n" else ind ++ "  " ++ t ++ "\n"))

def leafText (ind : String) (scalar : String) : String :=
  if scalar.data.contains '\n' then blockText ind (splitNl scalar)
  else scalar ++ "\n"

/-- The output writeNestedYAML produces for one entry, given the previous
entry's segment path (its whole loop body except the `prevParts` update). -/
def entryText (prevParts : List String) (key : String) (e : mergeEntry) : String :=
  let parts := splitDot key
  let common := goCommonLen parts prevParts
  let blankSep :=
    if prevParts.length > 0 ∧ parts.headD "" ≠ prevParts.headD "" then "\n" else ""
  let parents := strConcat ((List.range' common (parts.length - 1 - common)).map
    (fun j => indentStr j ++ parts.getD j "" ++ ":\n"))
  let depth := parts.length - 1
  let ind := indentStr depth
  let commentText := if e.comment = "" then "" else
    strConcat ((splitNl e.comment).map (fun cl => ind ++ cl ++ "\n"))
  let leaf := parts.getD depth ""
  blankSep ++ parents ++ commentText ++ ind ++ leaf ++ ": " ++ leafText ind (yamlScalar e.value)

/-- The Go map `entryMap` built by writeNestedYAML (later inserts override). -/
def entryMapOf (l : List mergeEntry) : String → Option mergeEntry :=
  l.foldl (fun m e => fun k => if k = e.key then some e else m k) (fun _ => none)

/-- The main emission loop of writeNestedYAML over the sorted key list. -/
def writeLoop (m : String → Option mergeEntry) : List String → List String → String
  | _, [] => ""
  | prevParts, k :: ks =>
    let e := (m k).getD ⟨"", "", ""⟩
    entryText prevParts k e ++ writeLoop m (splitDot k) ks

/-- part_008 `writeNestedYAML`: sort the entries by key, then emit nested
YAML re-opening only the parent segments that change between consecutive
keys (the `strings.Builder` is the returned string). -/
def writeNestedYAML (entries : List mergeEntry) : String :=
  let sorted := sortEntries entries
  writeLoop (entryMapOf sorted) [] (sorted.map mergeEntry.key)

/-! ## writeNestedYAML: line-structured document following the spec's words -/

/-- One physical line of the produced document, tagged with its nesting
depth: rendering indents a line by exactly two spaces per depth level. -/
inductive YamlLine where
  | blank : YamlLine
  | parentLine (depth : Nat) (seg : String) : YamlLine
  | commentLine (depth : Nat) (text : String) : YamlLine
  | leafLine (depth : Nat) (seg : String) (scalar : String) : YamlLine
deriving DecidableEq

def renderLine : YamlLine → String
  | .blank => "\n"
  | .parentLine d s => indentStr d ++ s ++ ":\n"
  | .commentLine d t => indentStr d ++ t ++ "\n"
  | .leafLine d s sc => indentStr d ++ s ++ ": " ++ leafText (indentStr d) sc

/-- Length of the longest common prefix of two segment lists. -/
def lcpLen : List String → List String → Nat
  | a :: as, b :: bs => if a = b then lcpLen as bs + 1 else 0
  | _, _ => 0

/-- The lines one entry contributes, following the spec's words: a blank
separator when the top-level segment changes (skipped for the very first
entry), re-opened parent segments on exactly the positions where the parent
path differs from the previous entry's parent path, each line of a non-empty
comment at the leaf's depth directly above the leaf, then the leaf. -/
def specEntryLines (prevParts : List String) (e : mergeEntry) : List YamlLine :=
  let parts := splitDot e.key
  let d := parts.length - 1
  let common := lcpLen parts.dropLast prevParts.dropLast
  (if prevParts ≠ [] ∧ parts.headD "" ≠ prevParts.headD "" then [YamlLine.blank] else [])
  ++ (List.range' common (d - common)).map (fun j => YamlLine.parentLine j (parts.getD j ""))
  ++ (if e.comment = "" then [] else (splitNl e.comment).map (YamlLine.commentLine d))
  ++ [YamlLine.leafLine d (parts.getD d "") (yamlScalar e.value)]

def specDocLines : List String → List mergeEntry → List YamlLine
  | _, [] => []
  | prev, e :: rest => specEntryLines prev e ++ specDocLines (splitDot e.key) rest

/-! ## writeNestedYAML: the source loop refines the spec-side line document -/

theorem lcpLen_cons (x y : String) (as bs : List String) :
    lcpLen (x :: as) (y :: bs) = if x = y then lcpLen as bs + 1 else 0 := rfl

theorem lcpLen_nil_left (b : List String) : lcpLen [] b = 0 := by
  cases b <;> rfl

theorem lcpLen_nil_right (a : List String) : lcpLen a [] = 0 := by
  cases a <;> rfl

theorem commonLoop_eq (parts prev : List String) (maxP : Nat)
    (hp : maxP ≤ parts.length) (hq : maxP ≤ prev.length) :
    ∀ j, commonLoop parts prev maxP j =
      j + min (lcpLen (parts.drop j) (prev.drop j)) (maxP - j) := by
  have main : ∀ n j, maxP - j ≤ n → commonLoop parts prev maxP j =
      j + min (lcpLen (parts.drop j) (prev.drop j)) (maxP - j) := by
    intro n
    induction n with
    | zero =>
      intro j hj
      have hj' : ¬ j < maxP := by omega
      rw [commonLoop, if_neg hj']
      omega
    | succ n ih =>
      intro j hj
      rw [commonLoop]
      by_cases hjm : j < maxP
      · have hjp : j < parts.length := lt_of_lt_of_le hjm hp
        have hjq : j < prev.length := lt_of_lt_of_le hjm hq
        have hdp : parts.drop j = parts[j] :: parts.drop (j + 1) := List.drop_eq_getElem_cons hjp
        have hdq : prev.drop j = prev[j] :: prev.drop (j + 1) := List.drop_eq_getElem_cons hjq
        rw [if_pos hjm]
        rw [List.getD_eq_getElem parts "" hjp, List.getD_eq_getElem prev "" hjq]
        by_cases heq : parts[j] = prev[j]
        · rw [if_pos heq, ih (j + 1) (by omega), hdp, hdq, lcpLen_cons, if_pos heq]
          omega
        · rw [if_neg heq, hdp, hdq, lcpLen_cons, if_neg heq]
          omega
      · rw [if_neg hjm]
        omega
  intro j
  exact main (maxP - j) j le_rfl

theorem lcpLen_dropLast (a : List String) :
    ∀ b : List String, lcpLen a.dropLast b.dropLast =
      min (lcpLen a b) (min (a.length - 1) (b.length - 1)) := by
  induction a with
  | nil => intro b; simp [List.dropLast_nil, lcpLen_nil_left]
  | cons x as iha =>
    intro b
    cases b with
    | nil => simp [List.dropLast_nil, lcpLen_nil_right]
    | cons y bs =>
      cases as with
      | nil =>
        rw [List.dropLast_single, lcpLen_nil_left, lcpLen_cons]
        by_cases hxy : x = y
        · rw [if_pos hxy]; simp
        · rw [if_neg hxy]; simp
      | cons a' as' =>
        cases bs with
        | nil =>
          rw [List.dropLast_single, lcpLen_nil_right, lcpLen_cons]
          by_cases hxy : x = y
          · rw [if_pos hxy]; simp
          · rw [if_neg hxy]; simp
        | cons b' bs' =>
          rw [List.dropLast_cons₂, List.dropLast_cons₂, lcpLen_cons, lcpLen_cons]
          by_cases hxy : x = y
          · rw [if_pos hxy, if_pos hxy, iha (b' :: bs')]
            simp only [List.length_cons, List.length_dropLast]
            omega
          · rw [if_neg hxy, if_neg hxy]
            simp

theorem goCommonLen_eq_spec (parts prev : List String) :
    goCommonLen parts prev = lcpLen parts.dropLast prev.dropLast := by
  rw [goCommonLen, commonLoop_eq parts prev _ (by omega) (by omega) 0]
  rw [lcpLen_dropLast]
  simp only [List.drop_zero, Nat.zero_add, Nat.sub_zero]

theorem foldUpd_not_mem (l : List mergeEntry) :
    ∀ (m0 : String → Option mergeEntry) (k : String), k ∉ l.map mergeEntry.key →
    (l.foldl (fun m e => fun k2 => if k2 = e.key then some e else m k2) m0) k = m0 k := by
  induction l with
  | nil => intro m0 k _; rfl
  | cons f fs ih =>
    intro m0 k hk
    simp only [List.map_cons, List.mem_cons, not_or] at hk
    rw [List.foldl_cons, ih _ k hk.2]
    simp [hk.1]

theorem entryMapOf_lookup (l : List mergeEntry) (hnd : (l.map mergeEntry.key).Nodup) :
    ∀ e ∈ l, entryMapOf l e.key = some e := by
  suffices h : ∀ (m0 : String → Option mergeEntry), ∀ e ∈ l,
      (l.foldl (fun m e => fun k2 => if k2 = e.key then some e else m k2) m0) e.key = some e by
    intro e he; exact h _ e he
  induction l with
  | nil => intro m0 e he; exact absurd he (List.not_mem_nil e)
  | cons f fs ih =>
    intro m0 e he
    simp only [List.map_cons, List.nodup_cons] at hnd
    rcases List.mem_cons.mp he with he | he
    · subst he
      rw [List.foldl_cons, foldUpd_not_mem fs _ e.key hnd.1]
      simp
    · exact ih hnd.2 _ e he

theorem strApp_assoc (a b c : String) : (a ++ b) ++ c = a ++ (b ++ c) := by
  apply String.ext
  simp only [String.append_data, List.append_assoc]

theorem strApp_empty (s : String) : s ++ "" = s := by
  apply String.ext
  show s.data ++ [] = s.data
  exact List.append_nil s.data

theorem strEmpty_app (s : String) : "" ++ s = s := by
  apply String.ext
  rfl

theorem renderComp_parent (parts : List String) :
    (renderLine ∘ fun j => YamlLine.parentLine j (parts.getD j "")) =
      fun j => indentStr j ++ parts.getD j "" ++ ":\n" := rfl

theorem renderComp_comment (d : Nat) :
    (renderLine ∘ YamlLine.commentLine d) = fun t => indentStr d ++ t ++ "\n" := rfl

theorem map_render_comment (d : Nat) (l : List String) :
    List.map renderLine (List.map (YamlLine.commentLine d) l) =
      List.map (fun t => indentStr d ++ t ++ "\n") l := by
  rw [List.map_map]
  rfl

theorem entryText_eq_spec (prev : List String) (e : mergeEntry) :
    entryText prev e.key e = strConcat ((specEntryLines prev e).map renderLine) := by
  simp only [entryText, specEntryLines]
  rw [goCommonLen_eq_spec]
  have hcond : (prev.length > 0 ∧ (splitDot e.key).headD "" ≠ prev.headD "") =
      (prev ≠ [] ∧ (splitDot e.key).headD "" ≠ prev.headD "") := by
    apply propext
    constructor
    · intro h; exact ⟨List.length_pos.mp h.1, h.2⟩
    · intro h; exact ⟨List.length_pos.mpr h.1, h.2⟩
  simp only [hcond, List.map_append, strConcat_append, List.map_map,
    renderComp_parent, renderComp_comment]
  by_cases hb : prev ≠ [] ∧ (splitDot e.key).headD "" ≠ prev.headD ""
  · rw [if_pos hb, if_pos hb]
    by_cases hc : e.comment = ""
    · rw [if_pos hc, if_pos hc]
      simp only [List.map_nil, strConcat, List.map_cons, renderLine]
      simp only [strApp_assoc, strApp_empty, strEmpty_app]
    · rw [if_neg hc, if_neg hc]
      simp only [strConcat, List.map_cons, List.map_nil, renderLine, map_render_comment]
      simp only [strApp_assoc, strApp_empty, strEmpty_app]
  · rw [if_neg hb, if_neg hb]
    by_cases hc : e.comment = ""
    · rw [if_pos hc, if_pos hc]
      simp only [List.map_nil, strConcat, List.map_cons, renderLine]
      simp only [strApp_assoc, strApp_empty, strEmpty_app]
    · rw [if_neg hc, if_neg hc]
      simp only [strConcat, List.map_cons, List.map_nil, renderLine, map_render_comment]
      simp only [strApp_assoc, strApp_empty, strEmpty_app]

theorem writeLoop_eq_spec (m : String → Option mergeEntry) :
    ∀ (suffix : List mergeEntry) (prev : List String),
    (∀ e ∈ suffix, m e.key = some e) →
    writeLoop m prev (suffix.map mergeEntry.key) =
      strConcat ((specDocLines prev suffix).map renderLine) := by
  intro suffix
  induction suffix with
  | nil => intro prev _; rfl
  | cons e rest ih =>
    intro prev hm
    have hme : m e.key = some e := hm e (List.mem_cons_self e rest)
    show (entryText prev e.key ((m e.key).getD ⟨"", "", ""⟩)) ++
        writeLoop m (splitDot e.key) (rest.map mergeEntry.key) =
      strConcat ((specDocLines prev (e :: rest)).map renderLine)
    rw [hme]
    show entryText prev e.key e ++ writeLoop m (splitDot e.key) (rest.map mergeEntry.key) =
      strConcat ((specDocLines prev (e :: rest)).map renderLine)
    rw [ih (splitDot e.key) (fun f hf => hm f (List.mem_cons_of_mem e hf))]
    rw [entryText_eq_spec]
    show _ = strConcat ((specEntryLines prev e ++ specDocLines (splitDot e.key) rest).map renderLine)
    rw [List.map_append, strConcat_append]

/-- The source writeNestedYAML equals the spec-side line document, rendered. -/
theorem writeNestedYAML_eq_specDoc (entries : List mergeEntry)
    (hnd : (entries.map mergeEntry.key).Nodup) :
    writeNestedYAML entries =
      strConcat ((specDocLines [] (sortEntries entries)).map renderLine) := by
  have hnd' : ((sortEntries entries).map mergeEntry.key).Nodup :=
    (((sortEntries_perm entries).map mergeEntry.key).symm.nodup hnd)
  show writeLoop (entryMapOf (sortEntries entries)) []
      ((sortEntries entries).map mergeEntry.key) = _
  exact writeLoop_eq_spec _ (sortEntries entries) [] (entryMapOf_lookup _ hnd')

/-! ## writeNestedYAML: blank separators, leaf order -/

def topKey (e : mergeEntry) : String := (splitDot e.key).headD ""

/-- Number of adjacent pairs whose top-level segment differs. -/
def topChanges : List mergeEntry → Nat
  | [] => 0
  | [_] => 0
  | a :: b :: t => (if topKey b ≠ topKey a then 1 else 0) + topChanges (b :: t)

theorem splitCharOn_ne_nil (sep : Char) : ∀ (cs acc : List Char), splitCharOn sep cs acc ≠ [] := by
  intro cs
  induction cs with
  | nil => intro acc; simp [splitCharOn]
  | cons c t ih =>
    intro acc
    by_cases h : c = sep
    · simp [splitCharOn, h]
    · simp only [splitCharOn, if_neg h]
      exact ih (c :: acc)

theorem splitDot_ne_nil (s : String) : splitDot s ≠ [] := by
  simp only [splitDot, ne_eq, List.map_eq_nil_iff]
  exact splitCharOn_ne_nil '.' s.data []

theorem count_blank_entry (prev : List String) (e : mergeEntry) :
    (specEntryLines prev e).count YamlLine.blank =
      (if prev ≠ [] ∧ (splitDot e.key).headD "" ≠ prev.headD "" then 1 else 0) := by
  simp only [specEntryLines, List.count_append]
  have h1 : (List.count YamlLine.blank
      ((List.range' (lcpLen (splitDot e.key).dropLast prev.dropLast)
        ((splitDot e.key).length - 1 - lcpLen (splitDot e.key).dropLast prev.dropLast)).map
        (fun j => YamlLine.parentLine j ((splitDot e.key).getD j "")))) = 0 := by
    rw [List.count_eq_zero]
    intro hmem
    rcases List.mem_map.mp hmem with ⟨j, _, hj⟩
    exact YamlLine.noConfusion hj
  have h2 : (List.count YamlLine.blank
      (if e.comment = "" then ([] : List YamlLine)
       else (splitNl e.comment).map (YamlLine.commentLine ((splitDot e.key).length - 1)))) = 0 := by
    by_cases hc : e.comment = ""
    · rw [if_pos hc]; rfl
    · rw [if_neg hc, List.count_eq_zero]
      intro hmem
      rcases List.mem_map.mp hmem with ⟨t, _, ht⟩
      exact YamlLine.noConfusion ht
  have h3 : (List.count YamlLine.blank
      [YamlLine.leafLine ((splitDot e.key).length - 1)
        ((splitDot e.key).getD ((splitDot e.key).length - 1) "") (yamlScalar e.value)]) = 0 := by
    rw [List.count_eq_zero]
    intro hmem
    rcases List.mem_singleton.mp hmem with h
    exact YamlLine.noConfusion h
  rw [h1, h2, h3]
  by_cases hb : prev ≠ [] ∧ (splitDot e.key).headD "" ≠ prev.headD ""
  · rw [if_pos hb, if_pos hb]; rfl
  · rw [if_neg hb, if_neg hb]; rfl

theorem count_blank_doc :
    ∀ (S : List mergeEntry) (prevKey : String),
    (specDocLines (splitDot prevKey) S).count YamlLine.blank =
      (match S with
       | [] => 0
       | e :: _ => if topKey e ≠ (splitDot prevKey).headD "" then 1 else 0) + topChanges S := by
  intro S
  induction S with
  | nil => intro k; rfl
  | cons e rest ih =>
    intro k
    show (List.count YamlLine.blank
        (specEntryLines (splitDot k) e ++ specDocLines (splitDot e.key) rest)) = _
    rw [List.count_append, count_blank_entry, ih e.key]
    have hne : splitDot k ≠ [] := splitDot_ne_nil k
    cases rest with
    | nil =>
      show (if splitDot k ≠ [] ∧ (splitDot e.key).headD "" ≠ (splitDot k).headD "" then 1 else 0)
          + (0 + 0) = _
      simp only [topChanges, topKey]
      by_cases hb : (splitDot e.key).headD "" ≠ (splitDot k).headD ""
      · rw [if_pos ⟨hne, hb⟩, if_pos hb]
      · rw [if_neg (by tauto), if_neg hb]
    | cons f t =>
      show (if splitDot k ≠ [] ∧ (splitDot e.key).headD "" ≠ (splitDot k).headD "" then 1 else 0)
          + ((if topKey f ≠ (splitDot e.key).headD "" then 1 else 0) + topChanges (f :: t)) = _
      show _ = (if topKey e ≠ (splitDot k).headD "" then 1 else 0) + topChanges (e :: f :: t)
      have hTC : topChanges (e :: f :: t) =
          (if topKey f ≠ topKey e then 1 else 0) + topChanges (f :: t) := rfl
      rw [hTC]
      simp only [topKey]
      by_cases hb : (splitDot e.key).headD "" ≠ (splitDot k).headD ""
      · rw [if_pos ⟨hne, hb⟩, if_pos hb]
      · rw [if_neg (by tauto), if_neg hb]

theorem count_blank_doc_nil : ∀ S : List mergeEntry,
    (specDocLines [] S).count YamlLine.blank = topChanges S := by
  intro S
  cases S with
  | nil => rfl
  | cons e rest =>
    show (specEntryLines [] e ++ specDocLines (splitDot e.key) rest).count YamlLine.blank = _
    rw [List.count_append, count_blank_entry, if_neg (by simp), count_blank_doc rest e.key]
    cases rest with
    | nil => rfl
    | cons f t =>
      show 0 + ((if topKey f ≠ (splitDot e.key).headD "" then 1 else 0) + topChanges (f :: t)) =
        topChanges (e :: f :: t)
      have hTC : topChanges (e :: f :: t) =
          (if topKey f ≠ topKey e then 1 else 0) + topChanges (f :: t) := rfl
      rw [hTC]
      simp only [topKey]
      omega

theorem no_blank_first_entry (e : mergeEntry) :
    YamlLine.blank ∉ specEntryLines [] e := by
  have h := count_blank_entry [] e
  rw [if_neg (by simp)] at h
  exact List.count_eq_zero.mp h

theorem specEntryLines_ne_nil (prev : List String) (e : mergeEntry) :
    specEntryLines prev e ≠ [] := by
  simp [specEntryLines]

theorem specDocLines_head_not_blank (S : List mergeEntry) :
    ∀ x, (specDocLines [] S).head? = some x → x ≠ YamlLine.blank := by
  intro x hx
  cases S with
  | nil => simp [specDocLines] at hx
  | cons e rest =>
    have hdoc : specDocLines [] (e :: rest) =
        specEntryLines [] e ++ specDocLines (splitDot e.key) rest := rfl
    cases h : specEntryLines [] e with
    | nil => exact absurd h (specEntryLines_ne_nil [] e)
    | cons y ys =>
      rw [hdoc, h] at hx
      simp only [List.cons_append, List.head?_cons, Option.some_inj] at hx
      subst hx
      intro hblank
      subst hblank
      exact no_blank_first_entry e (h ▸ List.mem_cons_self _ _)

/-- Extracts the leaf line's depth, final segment and scalar. -/
def getLeaf : YamlLine → Option (Nat × String × String)
  | .leafLine d s sc => some (d, s, sc)
  | _ => none

theorem filterMap_leaf_entry (prev : List String) (e : mergeEntry) :
    (specEntryLines prev e).filterMap getLeaf =
      [((splitDot e.key).length - 1,
        (splitDot e.key).getD ((splitDot e.key).length - 1) "",
        yamlScalar e.value)] := by
  simp only [specEntryLines, List.filterMap_append]
  have h1 : List.filterMap getLeaf
      (if prev ≠ [] ∧ (splitDot e.key).headD "" ≠ prev.headD ""
       then [YamlLine.blank] else []) = [] := by
    by_cases hb : prev ≠ [] ∧ (splitDot e.key).headD "" ≠ prev.headD ""
    · rw [if_pos hb]; rfl
    · rw [if_neg hb]; rfl
  have h2 : List.filterMap getLeaf
      ((List.range' (lcpLen (splitDot e.key).dropLast prev.dropLast)
        ((splitDot e.key).length - 1 - lcpLen (splitDot e.key).dropLast prev.dropLast)).map
        (fun j => YamlLine.parentLine j ((splitDot e.key).getD j ""))) = [] := by
    rw [List.filterMap_map]
    apply List.filterMap_eq_nil_iff.mpr
    intro j _
    rfl
  have h3 : List.filterMap getLeaf
      (if e.comment = "" then ([] : List YamlLine)
       else (splitNl e.comment).map (YamlLine.commentLine ((splitDot e.key).length - 1))) = [] := by
    by_cases hc : e.comment = ""
    · rw [if_pos hc]; rfl
    · rw [if_neg hc, List.filterMap_map]
      apply List.filterMap_eq_nil_iff.mpr
      intro t _
      rfl
  rw [h1, h2, h3]
  rfl

theorem filterMap_leaf_doc :
    ∀ (S : List mergeEntry) (prev : List String),
    (specDocLines prev S).filterMap getLeaf =
      S.map (fun e =>
        ((splitDot e.key).length - 1,
         (splitDot e.key).getD ((splitDot e.key).length - 1) "",
         yamlScalar e.value)) := by
  intro S
  induction S with
  | nil => intro prev; rfl
  | cons e rest ih =>
    intro prev
    show (specEntryLines prev e ++ specDocLines (splitDot e.key) rest).filterMap getLeaf = _
    rw [List.filterMap_append, filterMap_leaf_entry, ih (splitDot e.key)]
    rfl

theorem sortEntries_pairwise_lt (l : List mergeEntry)
    (hnd : (l.map mergeEntry.key).Nodup) :
    (sortEntries l).Pairwise (fun a b => strLtB a.key b.key = true) := by
  have hs := sortEntries_sorted l
  have hnd' : ((sortEntries l).map mergeEntry.key).Nodup :=
    (((sortEntries_perm l).map mergeEntry.key).symm.nodup hnd)
  have hne : (sortEntries l).Pairwise (fun a b => a.key ≠ b.key) :=
    List.pairwise_map.mp hnd'
  refine (hs.and hne).imp ?_
  intro a b hab
  rcases hab with ⟨hle, hnekey⟩
  by_cases h : strLtB a.key b.key = true
  · exact h
  · have hba : strLtB b.key a.key = false := by
      simpa [entryLe, strLeB] using hle
    exact absurd (strLtB_antisymm _ _ (by simpa using h) hba) hnekey

/-- C2: for a non-empty entry list with pairwise-distinct dotted keys, the
document writeNestedYAML produces is exactly the rendering of the spec-side
line document built over the key-sorted entries (so every level is indented
two spaces past its parent, only the parent segments on which the path
differs from the previous entry are re-emitted, and the lines of a non-empty
comment sit at the leaf's indent directly above the leaf); the sorted entry
list is a permutation of the input listed in strictly ascending byte order
of the full dotted key, the document's leaf lines are exactly those sorted
entries in order, it contains exactly one blank separator line per adjacent
pair of entries whose top-level segment differs, and its first line is never
the blank separator. -/
theorem writeNestedYAML_document_structure (entries : List mergeEntry)
    (hne : entries ≠ []) (hnd : (entries.map mergeEntry.key).Nodup) :
    writeNestedYAML entries =
      strConcat ((specDocLines [] (sortEntries entries)).map renderLine)
    ∧ (sortEntries entries).Perm entries
    ∧ (sortEntries entries).Pairwise (fun a b => strLtB a.key b.key = true)
    ∧ (specDocLines [] (sortEntries entries)).filterMap getLeaf =
        (sortEntries entries).map (fun e =>
          ((splitDot e.key).length - 1,
           (splitDot e.key).getD ((splitDot e.key).length - 1) "",
           yamlScalar e.value))
    ∧ (specDocLines [] (sortEntries entries)).count YamlLine.blank =
        topChanges (sortEntries entries)
    ∧ (∀ x, (specDocLines [] (sortEntries entries)).head? = some x → x ≠ YamlLine.blank) := by
  refine ⟨writeNestedYAML_eq_specDoc entries hnd, sortEntries_perm entries,
    sortEntries_pairwise_lt entries hnd, filterMap_leaf_doc (sortEntries entries) [],
    count_blank_doc_nil (sortEntries entries), specDocLines_head_not_blank (sortEntries entries)⟩

theorem writeNestedYAML_document_structure_witness :
    (([⟨"tray.preferences", "Preferences", ""⟩,
       ⟨"app.name", "Rancher Desktop", "# @reason keep"⟩] : List mergeEntry) ≠ []
     ∧ (([⟨"tray.preferences", "Preferences", ""⟩,
          ⟨"app.name", "Rancher Desktop", "# @reason keep"⟩] : List mergeEntry).map
          mergeEntry.key).Nodup)
    ∧ writeNestedYAML
        [⟨"tray.preferences", "Preferences", ""⟩,
         ⟨"app.name", "Rancher Desktop", "# @reason keep"⟩] =
      strConcat ((specDocLines []
        (sortEntries [⟨"tray.preferences", "Preferences", ""⟩,
          ⟨"app.name", "Rancher Desktop", "# @reason keep"⟩])).map renderLine) :=
  ⟨⟨by decide, by decide⟩,
   (writeNestedYAML_document_structure
     [⟨"tray.preferences", "Preferences", ""⟩,
      ⟨"app.name", "Rancher Desktop", "# @reason keep"⟩]
     (by decide) (by decide)).1⟩

/-- C10: the output of writeNestedYAML does not depend on the order of the
input entries: permuted entry lists with pairwise-distinct keys produce
byte-identical output, because the function sorts by key before emitting. -/
theorem writeNestedYAML_perm_invariant (l l' : List mergeEntry) (hperm : l.Perm l')
    (hnd : (l.map mergeEntry.key).Nodup) :
    writeNestedYAML l = writeNestedYAML l' := by
  show writeLoop (entryMapOf (sortEntries l)) [] ((sortEntries l).map mergeEntry.key) =
    writeLoop (entryMapOf (sortEntries l')) [] ((sortEntries l').map mergeEntry.key)
  rw [sortEntries_eq_of_perm l l' hperm hnd]

theorem writeNestedYAML_perm_invariant_witness :
    (([⟨"a.x", "1", ""⟩, ⟨"b.y", "2", ""⟩] : List mergeEntry).Perm
       [⟨"b.y", "2", ""⟩, ⟨"a.x", "1", ""⟩]
     ∧ (([⟨"a.x", "1", ""⟩, ⟨"b.y", "2", ""⟩] : List mergeEntry).map mergeEntry.key).Nodup)
    ∧ writeNestedYAML [⟨"a.x", "1", ""⟩, ⟨"b.y", "2", ""⟩] =
        writeNestedYAML [⟨"b.y", "2", ""⟩, ⟨"a.x", "1", ""⟩] :=
  ⟨⟨List.Perm.swap _ _ _, by decide⟩,
   writeNestedYAML_perm_invariant _ _ (List.Perm.swap _ _ _) (by decide)⟩

/-! ## Translate batch slicing (report_translate.go / part_000) -/

/-- The slice expression of reportTranslate's batch branch: Go's
`pairs[start:end]` after clamping both bounds to the list length. -/
def slicePairs {α : Type} (pairs : List α) (batch batches : Int) : List α :=
  let total : Int := pairs.length
  let size : Int := (total + batches - 1) / batches
  let start0 : Int := (batch - 1) * size
  let end0 : Int := start0 + size
  let start1 : Int := if start0 > total then total else start0
  let end1 : Int := if end0 > total then total else end0
  (pairs.drop start1.toNat).take (end1 - start1).toNat

/-- The batch-slicing stage of reportTranslate: active when `--batches > 0`,
rejecting a batch index outside `[1, batches]`, otherwise slicing. -/
def sliceBatch {α : Type} (pairs : List α) (batch batches : Int) : Except String (List α) :=
  if batches > 0 then
    if batch < 1 ∨ batch > batches then
      Except.error "--batch must be between 1 and batches"
    else Except.ok (slicePairs pairs batch batches)
  else Except.ok pairs

theorem slicePairs_eq {α : Type} (pairs : List α) (batch batches : Int)
    (hB : 1 ≤ batches) (h1 : 1 ≤ batch) (h2 : batch ≤ batches) :
    slicePairs pairs batch batches =
      (pairs.drop (min ((batch.toNat - 1) *
          ((pairs.length + batches.toNat - 1) / batches.toNat)) pairs.length)).take
        (min (batch.toNat * ((pairs.length + batches.toNat - 1) / batches.toNat)) pairs.length
         - min ((batch.toNat - 1) *
            ((pairs.length + batches.toNat - 1) / batches.toNat)) pairs.length) := by
  simp only [slicePairs]
  have hBv : batches = (batches.toNat : Int) := (Int.toNat_of_nonneg (by omega)).symm
  have hbv : batch = (batch.toNat : Int) := (Int.toNat_of_nonneg (by omega)).symm
  set n := pairs.length with hn
  set B := batches.toNat with hB2
  set b := batch.toNat with hb2
  set s := (n + B - 1) / B with hs
  have hB1 : 1 ≤ B := by omega
  have hb1 : 1 ≤ b := by omega
  have hsize : ((n : Int) + batches - 1) / batches = (s : Int) := by
    rw [hBv]
    have hcast : ((n : Int) + (B : Int) - 1) = ((n + B - 1 : Nat) : Int) := by omega
    rw [hcast, hs]
    exact (Int.ofNat_div (n + B - 1) B).symm
  rw [hsize]
  have hstart : (batch - 1) * (s : Int) = (((b - 1) * s : Nat) : Int) := by
    rw [hbv]
    have : ((b : Int) - 1) = ((b - 1 : Nat) : Int) := by omega
    rw [this]
    push_cast
    ring
  rw [hstart]
  have hend : (((b - 1) * s : Nat) : Int) + (s : Int) = ((b * s : Nat) : Int) := by
    have hb' : b - 1 + 1 = b := by omega
    have hmul : (b - 1) * s + s = b * s := by
      calc (b - 1) * s + s = (b - 1 + 1) * s := by ring
        _ = b * s := by rw [hb']
    rw [← Nat.cast_add, hmul]
  rw [hend]
  have hclampS : (if (((b - 1) * s : Nat) : Int) > (n : Int) then (n : Int)
      else (((b - 1) * s : Nat) : Int)) = ((min ((b - 1) * s) n : Nat) : Int) := by
    by_cases h : (((b - 1) * s : Nat) : Int) > (n : Int)
    · rw [if_pos h]; omega
    · rw [if_neg h]; omega
  have hclampE : (if ((b * s : Nat) : Int) > (n : Int) then (n : Int)
      else ((b * s : Nat) : Int)) = ((min (b * s) n : Nat) : Int) := by
    by_cases h : ((b * s : Nat) : Int) > (n : Int)
    · rw [if_pos h]; omega
    · rw [if_neg h]; omega
  rw [hclampS, hclampE]
  have htn1 : ((min ((b - 1) * s) n : Nat) : Int).toNat = min ((b - 1) * s) n :=
    Int.toNat_natCast _
  have htn2 : (((min (b * s) n : Nat) : Int) - ((min ((b - 1) * s) n : Nat) : Int)).toNat =
      min (b * s) n - min ((b - 1) * s) n := by
    omega
  rw [htn1, htn2]

/-- C7: with `batches ≥ 1` and a sorted pair list of `total` entries, batch
`b ∈ [1, batches]` selects exactly the half-open range
`[(b-1)*size, b*size)` with both endpoints clamped to `[0, total]`, where
`size = (total + batches - 1) / batches` is the ceiling of
`total / batches` (smallest `s` with `total ≤ batches * s`); a batch index
outside `[1, batches]` makes the translate report return an error; and for
`total = 10`, `batches = 3` the three batches are `[0,4)`, `[4,8)`,
`[8,10)`. -/
theorem sliceBatch_spec :
    (∀ (α : Type) (pairs : List α) (batch batches : Int),
      1 ≤ batches → 1 ≤ batch → batch ≤ batches →
      sliceBatch pairs batch batches =
        Except.ok ((pairs.drop (min ((batch.toNat - 1) *
            ((pairs.length + batches.toNat - 1) / batches.toNat)) pairs.length)).take
          (min (batch.toNat * ((pairs.length + batches.toNat - 1) / batches.toNat))
              pairs.length
           - min ((batch.toNat - 1) *
              ((pairs.length + batches.toNat - 1) / batches.toNat)) pairs.length)))
    ∧ (∀ (n B : Nat), 1 ≤ B →
        n ≤ B * ((n + B - 1) / B)
        ∧ (∀ k : Nat, n ≤ B * k → (n + B - 1) / B ≤ k))
    ∧ (∀ (α : Type) (pairs : List α) (batch batches : Int),
      1 ≤ batches → (batch < 1 ∨ batch > batches) →
      sliceBatch pairs batch batches =
        Except.error "--batch must be between 1 and batches")
    ∧ sliceBatch (List.range 10) 1 3 = Except.ok [0, 1, 2, 3]
    ∧ sliceBatch (List.range 10) 2 3 = Except.ok [4, 5, 6, 7]
    ∧ sliceBatch (List.range 10) 3 3 = Except.ok [8, 9]
    ∧ sliceBatch (List.range 10) 0 3 = Except.error "--batch must be between 1 and batches"
    ∧ sliceBatch (List.range 10) 4 3 = Except.error "--batch must be between 1 and batches" := by
  refine ⟨?_, ?_, ?_, by rfl, by rfl, by rfl, by rfl, by rfl⟩
  · intro α pairs batch batches hB h1 h2
    rw [sliceBatch, if_pos (by omega), if_neg (by omega)]
    rw [slicePairs_eq pairs batch batches hB h1 h2]
  · intro n B hB
    have hdm := Nat.div_add_mod (n + B - 1) B
    have hmlt : (n + B - 1) % B < B := Nat.mod_lt _ (by omega)
    constructor
    · omega
    · intro k hk
      have hpos : 0 < B := by omega
      have hr : (k + 1) * B = B * k + B := by ring
      have h1 : n + B - 1 < (k + 1) * B := by omega
      have := (Nat.div_lt_iff_lt_mul hpos).mpr h1
      omega
  · intro α pairs batch batches hB hout
    rw [sliceBatch, if_pos (by omega), if_pos hout]

/-! ## The translate report (report_translate.go, part_000, part_001) -/

/-- Insertion sort on strings in byte order: the effect of Go's
`sort.Strings` inside `sortedKeys`. -/
def insertStr (x : String) : List String → List String
  | [] => [x]
  | y :: ys => if strLeB x y then x :: y :: ys else y :: insertStr x ys

def isortStr : List String → List String
  | [] => []
  | x :: xs => insertStr x (isortStr xs)

theorem insertStr_perm (x : String) (l : List String) : (insertStr x l).Perm (x :: l) := by
  induction l with
  | nil => exact List.Perm.refl _
  | cons y ys ih =>
    simp only [insertStr]
    by_cases h : strLeB x y = true
    · rw [if_pos h]
    · rw [if_neg h]
      exact ((ih.cons y).trans (List.Perm.swap x y ys))

theorem isortStr_perm (l : List String) : (isortStr l).Perm l := by
  induction l with
  | nil => exact List.Perm.refl _
  | cons x xs ih => exact (insertStr_perm x (isortStr xs)).trans (ih.cons x)

/-- A flat catalog (the result of `loadYAMLFlat`): dotted key / value pairs,
with Go-map lookup. -/
def keysOf (m : List (String × String)) : List String := m.map Prod.fst

def lookupC (m : List (String × String)) (k : String) : Option String :=
  (m.find? (fun p => p.1 = k)).map Prod.snd

/-- `sortedKeys` from part_008 applied to a catalog. -/
def sortedKeysC (m : List (String × String)) : List String := isortStr (keysOf m)

/-- The pair-selection loop of reportTranslate in report_translate.go (the
named current file, matching its test): every en-us key missing from the
locale catalog is selected, in sorted key order, regardless of source
references. -/
def translatePairs (enKeys localeKeys : List (String × String)) : List (String × String) :=
  (sortedKeysC enKeys).filterMap (fun k =>
    match lookupC localeKeys k with
    | some _ => none
    | none => some (k, (lookupC enKeys k).getD ""))

/-- The pair-selection loop of the reportTranslate variant in part_000: a key
is selected only when it is missing from the locale AND either referenced in
source (`refs`) or covered by a dynamic key pattern whose rendered form has
one of the collected prefixes (`dynPre`). -/
def translateUsedPairs (enKeys localeKeys : List (String × String))
    (refs : List String) (dynPre : List String) : List (String × String) :=
  (sortedKeysC enKeys).filterMap (fun k =>
    match lookupC localeKeys k with
    | some _ => none
    | none =>
      if refs.contains k then some (k, (lookupC enKeys k).getD "")
      else if dynPre.any (fun p => leadChars p.data k.data) then
        some (k, (lookupC enKeys k).getD "")
      else none)

theorem mem_sortedKeysC (m : List (String × String)) (k : String) :
    k ∈ sortedKeysC m ↔ k ∈ keysOf m :=
  (isortStr_perm (keysOf m)).mem_iff

/-- C3 counterexample: with reference catalog `{locale.name: English}` and an
empty locale catalog, the current translate report emits `locale.name` even
though nothing references it and no dynamic pattern covers it (the part_000
variant with an empty reference map and no dynamic prefixes emits nothing). -/
theorem translate_reports_unreferenced_missing_key :
    translatePairs [("locale.name", "English")] [] = [("locale.name", "English")]
    ∧ translateUsedPairs [("locale.name", "English")] [] [] [] = [] := by
  constructor
  · rfl
  · rfl

theorem mem_fst_translatePairs (en loc : List (String × String)) (k : String) :
    k ∈ (translatePairs en loc).map Prod.fst ↔
      (k ∈ keysOf en ∧ lookupC loc k = none) := by
  simp only [translatePairs, List.mem_map]
  constructor
  · rintro ⟨p, hp, hfst⟩
    rcases List.mem_filterMap.mp hp with ⟨k', hk', hf⟩
    cases hloc : lookupC loc k' with
    | some v => rw [hloc] at hf; exact absurd hf (by simp)
    | none =>
      rw [hloc] at hf
      have hpk : p = (k', (lookupC en k').getD "") := by
        simpa using hf.symm
      subst hpk
      simp only at hfst
      subst hfst
      exact ⟨(mem_sortedKeysC en k').mp hk', hloc⟩
  · rintro ⟨hk, hloc⟩
    refine ⟨(k, (lookupC en k).getD ""), ?_, rfl⟩
    apply List.mem_filterMap.mpr
    refine ⟨k, (mem_sortedKeysC en k).mpr hk, ?_⟩
    rw [hloc]

theorem mem_fst_translateUsedPairs (en loc : List (String × String))
    (refs dynPre : List String) (k : String) :
    k ∈ (translateUsedPairs en loc refs dynPre).map Prod.fst ↔
      (k ∈ keysOf en ∧ lookupC loc k = none ∧
        (k ∈ refs ∨ ∃ p ∈ dynPre, leadChars p.data k.data = true)) := by
  simp only [translateUsedPairs, List.mem_map]
  constructor
  · rintro ⟨p, hp, hfst⟩
    rcases List.mem_filterMap.mp hp with ⟨k', hk', hf⟩
    cases hloc : lookupC loc k' with
    | some v => rw [hloc] at hf; exact absurd hf (by simp)
    | none =>
      rw [hloc] at hf
      by_cases href : refs.contains k' = true
      · rw [if_pos href] at hf
        have hpk : p = (k', (lookupC en k').getD "") := by simpa using hf.symm
        subst hpk
        simp only at hfst
        subst hfst
        exact ⟨(mem_sortedKeysC en k').mp hk', hloc, Or.inl (List.elem_iff.mp href)⟩
      · rw [if_neg href] at hf
        by_cases hdyn : (dynPre.any (fun p => leadChars p.data k'.data)) = true
        · rw [if_pos hdyn] at hf
          have hpk : p = (k', (lookupC en k').getD "") := by simpa using hf.symm
          subst hpk
          simp only at hfst
          subst hfst
          exact ⟨(mem_sortedKeysC en k').mp hk', hloc, Or.inr (List.any_eq_true.mp hdyn)⟩
        · rw [if_neg hdyn] at hf
          exact absurd hf (by simp)
  · rintro ⟨hk, hloc, huse⟩
    refine ⟨(k, (lookupC en k).getD ""), ?_, rfl⟩
    apply List.mem_filterMap.mpr
    refine ⟨k, (mem_sortedKeysC en k).mpr hk, ?_⟩
    rw [hloc]
    cases huse with
    | inl href => rw [if_pos (List.elem_iff.mpr href)]
    | inr hdyn => by_cases href : refs.contains k = true
                  · rw [if_pos href]
                  · rw [if_neg href, if_pos (List.any_eq_true.mpr hdyn)]

/-- C3 (amended): in the part_000 variant of reportTranslate, a key is
reported exactly when it is an en-us key absent from the target locale AND
referenced in source or covered by a dynamic key prefix; the variant in
report_translate.go (the named current file, whose behaviour its test
expects) reports every missing en-us key with no reference condition at
all. -/
theorem reportTranslate_selection :
    (∀ (en loc : List (String × String)) (refs dynPre : List String) (k : String),
      k ∈ (translateUsedPairs en loc refs dynPre).map Prod.fst ↔
        (k ∈ keysOf en ∧ lookupC loc k = none ∧
          (k ∈ refs ∨ ∃ p ∈ dynPre, leadChars p.data k.data = true)))
    ∧ (∀ (en loc : List (String × String)) (k : String),
      k ∈ (translatePairs en loc).map Prod.fst ↔
        (k ∈ keysOf en ∧ lookupC loc k = none)) :=
  ⟨mem_fst_translateUsedPairs, mem_fst_translatePairs⟩

/-! ## Key removal (report_remove.go): yaml.Node mapping trees -/

/-- A YAML document node as report_remove.go manipulates it: a scalar leaf
or a mapping with ordered key/child pairs (yaml.Node Content pairs). -/
inductive YNode where
  | scalar (v : String) : YNode
  | mapping (children : List (String × YNode)) : YNode

mutual

/-- The pair-scanning loop of removeKeyFromNode over `node.Content`: the
first pair whose key matches the head segment is removed (last segment) or
recursed into, pruning the child when removal left it an empty mapping; a
failed recursion keeps scanning later pairs. Returns the new pair list when
a removal happened. -/
def removePairs : List (String × YNode) → String → List String → Option (List (String × YNode))
  | [], _, _ => none
  | (k, v) :: tl, p, rest =>
    if k = p then
      match rest with
      | [] => some tl
      | r :: rs =>
        match removeKeyFromNode v (r :: rs) with
        | some v' =>
          match v' with
          | YNode.mapping [] => some tl
          | _ => some ((k, v') :: tl)
        | none =>
          match removePairs tl p rest with
          | some tl' => some ((k, v) :: tl')
          | none => none
    else
      match removePairs tl p rest with
      | some tl' => some ((k, v) :: tl')
      | none => none

/-- report_remove.go removeKeyFromNode (mutation made explicit: `some n'` is
a successful removal leaving `n'`, `none` is `return false` with the node
untouched). -/
def removeKeyFromNode : YNode → List String → Option YNode
  | YNode.mapping ch, p :: rest => (removePairs ch p rest).map YNode.mapping
  | _, _ => none

end

mutual

/-- A segment path that leads to an existing entry of the document. -/
def hasPairsB : List (String × YNode) → String → List String → Bool
  | [], _, _ => false
  | (k, v) :: tl, p, rest =>
    if k = p then
      (match rest with
       | [] => true
       | r :: rs => hasPathB v (r :: rs)) || hasPairsB tl p rest
    else hasPairsB tl p rest

def hasPathB : YNode → List String → Bool
  | YNode.mapping ch, p :: rest => hasPairsB ch p rest
  | _, _ => false

end

mutual

theorem removePairs_isSome : ∀ (ch : List (String × YNode)) (p : String) (rest : List String),
    (removePairs ch p rest).isSome = hasPairsB ch p rest
  | [], _, _ => rfl
  | (k, v) :: tl, p, rest => by
    simp only [removePairs, hasPairsB]
    by_cases hk : k = p
    · rw [if_pos hk, if_pos hk]
      cases rest with
      | nil => simp
      | cons r rs =>
        cases hrm : removeKeyFromNode v (r :: rs) with
        | some v' =>
          have hv : hasPathB v (r :: rs) = true := by
            rw [← removeKeyFromNode_isSome v (r :: rs), hrm]
            rfl
          simp only [hrm, hv]
          cases v' with
          | scalar s => simp
          | mapping ch' => cases ch' <;> simp
        | none =>
          have hv : hasPathB v (r :: rs) = false := by
            rw [← removeKeyFromNode_isSome v (r :: rs), hrm]
            rfl
          simp only [hrm, hv]
          have htl := removePairs_isSome tl p (r :: rs)
          cases hrp : removePairs tl p (r :: rs) with
          | some tl' =>
            rw [hrp] at htl
            simp [← htl]
          | none =>
            rw [hrp] at htl
            simp [← htl]
    · rw [if_neg hk, if_neg hk]
      have htl := removePairs_isSome tl p rest
      cases hrp : removePairs tl p rest with
      | some tl' =>
        rw [hrp] at htl
        simp [← htl]
      | none =>
        rw [hrp] at htl
        simp [← htl]

theorem removeKeyFromNode_isSome : ∀ (n : YNode) (parts : List String),
    (removeKeyFromNode n parts).isSome = hasPathB n parts
  | YNode.scalar v, parts => by cases parts <;> rfl
  | YNode.mapping ch, [] => rfl
  | YNode.mapping ch, p :: rest => by
    simp only [removeKeyFromNode, hasPathB]
    have h := removePairs_isSome ch p rest
    cases hrp : removePairs ch p rest with
    | some tl' =>
      rw [hrp] at h
      simpa using h
    | none =>
      rw [hrp] at h
      simpa using h

end

mutual

/-- Dotted paths (as segment lists) of all scalar leaves under a pair list,
in document order, with the leaf values. -/
def pairsLeaves : List (String × YNode) → List (List String × String)
  | [] => []
  | (k, v) :: tl => (leafPaths v).map (fun q => (k :: q.1, q.2)) ++ pairsLeaves tl

def leafPaths : YNode → List (List String × String)
  | YNode.scalar v => [([], v)]
  | YNode.mapping ch => pairsLeaves ch

end

/-- Segment-list prefix test. -/
def isLeadSegs : List String → List String → Bool
  | [], _ => true
  | _ :: _, [] => false
  | a :: as, b :: bs => if a = b then isLeadSegs as bs else false

mutual

/-- No child anywhere in the pair list is an empty mapping. -/
def noEmptyPairs : List (String × YNode) → Bool
  | [] => true
  | (_, v) :: tl =>
    (match v with | YNode.mapping [] => false | _ => true) && noEmptyB v && noEmptyPairs tl

def noEmptyB : YNode → Bool
  | YNode.scalar _ => true
  | YNode.mapping ch => noEmptyPairs ch

end

def nodupKeysB : List String → Bool
  | [] => true
  | k :: tl => (!(tl.contains k)) && nodupKeysB tl

mutual

def wfPairs : List (String × YNode) → Bool
  | [] => true
  | (_, v) :: tl => wfB v && wfPairs tl

/-- Well-formed YAML mapping tree: duplicate-free keys at every level. -/
def wfB : YNode → Bool
  | YNode.scalar _ => true
  | YNode.mapping ch => nodupKeysB (ch.map Prod.fst) && wfPairs ch

end

theorem nodupKeysB_iff (l : List String) : nodupKeysB l = true ↔ l.Nodup := by
  induction l with
  | nil => simp [nodupKeysB]
  | cons k tl ih =>
    simp only [nodupKeysB, Bool.and_eq_true, Bool.not_eq_true', List.nodup_cons]
    constructor
    · rintro ⟨hc, hnd⟩
      refine ⟨?_, ih.mp hnd⟩
      intro hmem
      have h2 : tl.contains k = true := List.elem_iff.mpr hmem
      rw [h2] at hc
      exact Bool.noConfusion hc
    · rintro ⟨hmem, hnd⟩
      refine ⟨?_, ih.mpr hnd⟩
      by_cases hc : tl.contains k = true
      · have h2 : k ∈ tl := List.elem_iff.mp hc
        exact absurd h2 hmem
      · simpa using hc

theorem pairsLeaves_head_mem :
    ∀ (ch : List (String × YNode)) (q : List String × String), q ∈ pairsLeaves ch →
    ∃ k ∈ ch.map Prod.fst, ∃ t, q.1 = k :: t := by
  intro ch
  induction ch with
  | nil => intro q hq; simp [pairsLeaves] at hq
  | cons pr tl ih =>
    rcases pr with ⟨k, v⟩
    intro q hq
    rw [pairsLeaves] at hq
    rcases List.mem_append.mp hq with h | h
    · rcases List.mem_map.mp h with ⟨q', _, hq'⟩
      exact ⟨k, by simp, q'.1, by rw [← hq']⟩
    · rcases ih q h with ⟨k', hk', t, ht⟩
      exact ⟨k', by simp; right; simpa using hk', t, ht⟩

theorem hasPairs_key_mem :
    ∀ (ch : List (String × YNode)) (p : String) (rest : List String),
    hasPairsB ch p rest = true → p ∈ ch.map Prod.fst := by
  intro ch
  induction ch with
  | nil => intro p rest h; simp [hasPairsB] at h
  | cons pr tl ih =>
    rcases pr with ⟨k, v⟩
    intro p rest h
    simp only [hasPairsB] at h
    by_cases hk : k = p
    · simp [hk]
    · rw [if_neg hk] at h
      simp only [List.map_cons, List.mem_cons]
      exact Or.inr (ih p rest h)

theorem isLeadSegs_cons (a b : String) (as bs : List String) :
    isLeadSegs (a :: as) (b :: bs) = if a = b then isLeadSegs as bs else false := rfl

theorem isLeadSegs_comparable :
    ∀ (c a b : List String), isLeadSegs a c = true → isLeadSegs b c = true →
    isLeadSegs a b = true ∨ isLeadSegs b a = true := by
  intro c
  induction c with
  | nil =>
    intro a b ha hb
    cases a with
    | nil => left; rfl
    | cons x xs => simp [isLeadSegs] at ha
  | cons y ys ih =>
    intro a b ha hb
    cases a with
    | nil => left; rfl
    | cons x xs =>
      cases b with
      | nil => right; rfl
      | cons z zs =>
        rw [isLeadSegs_cons] at ha hb
        by_cases hxy : x = y
        · rw [if_pos hxy] at ha
          by_cases hzy : z = y
          · rw [if_pos hzy] at hb
            have := ih xs zs ha hb
            subst hxy
            subst hzy
            simpa [isLeadSegs_cons] using this
          · rw [if_neg hzy] at hb
            exact Bool.noConfusion hb
        · rw [if_neg hxy] at ha
          exact Bool.noConfusion ha

theorem removePairs_keys_sublist :
    ∀ (ch : List (String × YNode)) (p : String) (rest : List String) (tl' : List (String × YNode)),
    removePairs ch p rest = some tl' →
    List.Sublist (tl'.map Prod.fst) (ch.map Prod.fst) := by
  intro ch
  induction ch with
  | nil => intro p rest tl' h; simp [removePairs] at h
  | cons pr tl ih =>
    rcases pr with ⟨k, v⟩
    intro p rest tl' h
    simp only [removePairs] at h
    by_cases hk : k = p
    · rw [if_pos hk] at h
      cases rest with
      | nil =>
        simp only [Option.some_inj] at h
        subst h
        exact (List.sublist_cons_self _ _)
      | cons r rs =>
        cases hrm : removeKeyFromNode v (r :: rs) with
        | some v' =>
          simp only [hrm] at h
          cases v' with
          | scalar s =>
            simp only [Option.some_inj] at h
            subst h
            simp
          | mapping ch' =>
            cases ch' with
            | nil =>
              simp only [Option.some_inj] at h
              subst h
              exact (List.sublist_cons_self _ _)
            | cons c cs =>
              simp only [Option.some_inj] at h
              subst h
              simp
        | none =>
          simp only [hrm] at h
          cases hrp : removePairs tl p (r :: rs) with
          | some tl2 =>
            simp only [hrp, Option.some_inj] at h
            subst h
            simpa using (ih p (r :: rs) tl2 hrp).cons₂ k
          | none =>
            simp only [hrp] at h
            exact Option.noConfusion h
    · rw [if_neg hk] at h
      cases hrp : removePairs tl p rest with
      | some tl2 =>
        simp only [hrp, Option.some_inj] at h
        subst h
        simpa using (ih p rest tl2 hrp).cons₂ k
      | none =>
        simp only [hrp] at h
        exact Option.noConfusion h

mutual

theorem leaf_lead_hasPairs : ∀ (ch : List (String × YNode)) (p : String) (rest : List String)
    (q : List String × String), q ∈ pairsLeaves ch → isLeadSegs (p :: rest) q.1 = true →
    hasPairsB ch p rest = true
  | [], p, rest, q => by
    intro hq _
    simp [pairsLeaves] at hq
  | (k, v) :: tl, p, rest, q => by
    intro hq hlead
    simp only [pairsLeaves] at hq
    simp only [hasPairsB]
    rcases List.mem_append.mp hq with h | h
    · rcases List.mem_map.mp h with ⟨q', hq', heq⟩
      have hq1 : q.1 = k :: q'.1 := by rw [← heq]
      rw [hq1, isLeadSegs_cons] at hlead
      by_cases hpk : p = k
      · rw [if_pos hpk] at hlead
        rw [if_pos hpk.symm]
        cases rest with
        | nil => simp
        | cons r rs =>
          have := leaf_lead_hasPath v (r :: rs) q' (by simp) hq' hlead
          simp [this]
      · rw [if_neg hpk] at hlead
        exact Bool.noConfusion hlead
    · by_cases hk : k = p
      · rw [if_pos hk]
        have := leaf_lead_hasPairs tl p rest q h hlead
        simp [this]
      · rw [if_neg hk]
        exact leaf_lead_hasPairs tl p rest q h hlead

theorem leaf_lead_hasPath : ∀ (n : YNode) (parts : List String) (q : List String × String),
    parts ≠ [] → q ∈ leafPaths n → isLeadSegs parts q.1 = true → hasPathB n parts = true
  | YNode.scalar v, parts, q => by
    intro hne hq hlead
    simp only [leafPaths, List.mem_singleton] at hq
    subst hq
    cases parts with
    | nil => exact absurd rfl hne
    | cons a as => simp [isLeadSegs] at hlead
  | YNode.mapping ch, parts, q => by
    intro hne hq hlead
    cases parts with
    | nil => exact absurd rfl hne
    | cons p rest =>
      simp only [leafPaths] at hq
      simp only [hasPathB]
      exact leaf_lead_hasPairs ch p rest q hq hlead

end

mutual

theorem pairsLeaves_ne_nil : ∀ (ch : List (String × YNode)),
    noEmptyPairs ch = true → ch ≠ [] → pairsLeaves ch ≠ []
  | [] => by intro _ h; exact absurd rfl h
  | (k, v) :: tl => by
    intro hne _
    simp only [noEmptyPairs, Bool.and_eq_true] at hne
    obtain ⟨⟨hvne, hvem⟩, _⟩ := hne
    have hvnm : v ≠ YNode.mapping [] := by
      intro heq
      rw [heq] at hvne
      exact Bool.noConfusion hvne
    simp only [pairsLeaves]
    intro happ
    rcases List.append_eq_nil.mp happ with ⟨hmap, _⟩
    exact (leafPaths_ne_nil v hvem hvnm) (List.map_eq_nil_iff.mp hmap)

theorem leafPaths_ne_nil : ∀ (n : YNode),
    noEmptyB n = true → n ≠ YNode.mapping [] → leafPaths n ≠ []
  | YNode.scalar v => by intro _ _; simp [leafPaths]
  | YNode.mapping ch => by
    intro hne hnm
    simp only [noEmptyB] at hne
    apply pairsLeaves_ne_nil ch hne
    intro hch
    exact hnm (by rw [hch])

end

mutual

theorem hasPairs_iff_leaf : ∀ (ch : List (String × YNode)) (p : String) (rest : List String),
    noEmptyPairs ch = true →
    (hasPairsB ch p rest = true ↔ ∃ q ∈ pairsLeaves ch, isLeadSegs (p :: rest) q.1 = true)
  | [], p, rest => by
    intro _
    simp [hasPairsB, pairsLeaves]
  | (k, v) :: tl, p, rest => by
    intro hne
    simp only [noEmptyPairs, Bool.and_eq_true] at hne
    obtain ⟨⟨hvne, hvem⟩, htlne⟩ := hne
    have hvnm : v ≠ YNode.mapping [] := by
      intro heq
      rw [heq] at hvne
      exact Bool.noConfusion hvne
    constructor
    · intro h
      simp only [hasPairsB] at h
      by_cases hk : k = p
      · rw [if_pos hk] at h
        rcases Bool.or_eq_true_iff.mp h with h | h
        · cases rest with
          | nil =>
            cases hlp : leafPaths v with
            | nil => exact absurd hlp (leafPaths_ne_nil v hvem hvnm)
            | cons q0 qs =>
              refine ⟨(k :: q0.1, q0.2), ?_, ?_⟩
              · simp only [pairsLeaves, List.mem_append]
                left
                apply List.mem_map.mpr
                exact ⟨q0, by rw [hlp]; exact List.mem_cons_self _ _, rfl⟩
              · rw [isLeadSegs_cons, if_pos hk.symm]
                rfl
          | cons r rs =>
            have hv : hasPathB v (r :: rs) = true := by simpa using h
            rcases (hasPath_iff_leaf v (r :: rs) hvem (by simp)).mp hv with ⟨q', hq', hlead⟩
            refine ⟨(k :: q'.1, q'.2), ?_, ?_⟩
            · simp only [pairsLeaves, List.mem_append]
              left
              exact List.mem_map.mpr ⟨q', hq', rfl⟩
            · rw [isLeadSegs_cons, if_pos hk.symm]
              exact hlead
        · rcases (hasPairs_iff_leaf tl p rest htlne).mp h with ⟨q, hq, hlead⟩
          exact ⟨q, by simp only [pairsLeaves, List.mem_append]; right; exact hq, hlead⟩
      · rw [if_neg hk] at h
        rcases (hasPairs_iff_leaf tl p rest htlne).mp h with ⟨q, hq, hlead⟩
        exact ⟨q, by simp only [pairsLeaves, List.mem_append]; right; exact hq, hlead⟩
    · rintro ⟨q, hq, hlead⟩
      exact leaf_lead_hasPairs ((k, v) :: tl) p rest q hq hlead

theorem hasPath_iff_leaf : ∀ (n : YNode) (parts : List String),
    noEmptyB n = true → parts ≠ [] →
    (hasPathB n parts = true ↔ ∃ q ∈ leafPaths n, isLeadSegs parts q.1 = true)
  | YNode.scalar v, parts => by
    intro _ hne
    cases parts with
    | nil => exact absurd rfl hne
    | cons a as =>
      simp only [hasPathB, leafPaths, List.mem_singleton]
      constructor
      · intro h; exact Bool.noConfusion h
      · rintro ⟨q, hq, hlead⟩
        subst hq
        simp [isLeadSegs] at hlead
  | YNode.mapping ch, parts => by
    intro hne hp
    cases parts with
    | nil => exact absurd rfl hp
    | cons p rest =>
      simp only [hasPathB, leafPaths]
      exact hasPairs_iff_leaf ch p rest hne

end

mutual

theorem removePairs_noEmpty : ∀ (ch : List (String × YNode)) (p : String) (rest : List String)
    (tl' : List (String × YNode)), noEmptyPairs ch = true → removePairs ch p rest = some tl' →
    noEmptyPairs tl' = true
  | [], p, rest, tl' => by
    intro _ h
    simp [removePairs] at h
  | (k, v) :: tl, p, rest, tl' => by
    intro hne h
    simp only [noEmptyPairs, Bool.and_eq_true] at hne
    obtain ⟨⟨hvne, hvem⟩, htlne⟩ := hne
    simp only [removePairs] at h
    by_cases hk : k = p
    · rw [if_pos hk] at h
      cases rest with
      | nil =>
        simp only [Option.some_inj] at h
        subst h
        exact htlne
      | cons r rs =>
        cases hrm : removeKeyFromNode v (r :: rs) with
        | some v' =>
          simp only [hrm] at h
          have hv' : noEmptyB v' = true := removeKeyFromNode_noEmpty v (r :: rs) v' hvem hrm
          cases v' with
          | scalar s =>
            simp only [Option.some_inj] at h
            subst h
            simp [noEmptyPairs, noEmptyB, htlne]
          | mapping ch' =>
            cases ch' with
            | nil =>
              simp only [Option.some_inj] at h
              subst h
              exact htlne
            | cons c cs =>
              simp only [Option.some_inj] at h
              subst h
              simp only [noEmptyPairs, Bool.and_eq_true]
              exact ⟨⟨by simp, hv'⟩, htlne⟩
        | none =>
          simp only [hrm] at h
          cases hrp : removePairs tl p (r :: rs) with
          | some tl2 =>
            simp only [hrp, Option.some_inj] at h
            subst h
            simp only [noEmptyPairs, Bool.and_eq_true]
            exact ⟨⟨hvne, hvem⟩, removePairs_noEmpty tl p (r :: rs) tl2 htlne hrp⟩
          | none =>
            simp only [hrp] at h
            exact Option.noConfusion h
    · rw [if_neg hk] at h
      cases hrp : removePairs tl p rest with
      | some tl2 =>
        simp only [hrp, Option.some_inj] at h
        subst h
        simp only [noEmptyPairs, Bool.and_eq_true]
        exact ⟨⟨hvne, hvem⟩, removePairs_noEmpty tl p rest tl2 htlne hrp⟩
      | none =>
        simp only [hrp] at h
        exact Option.noConfusion h

theorem removeKeyFromNode_noEmpty : ∀ (n : YNode) (parts : List String) (n' : YNode),
    noEmptyB n = true → removeKeyFromNode n parts = some n' → noEmptyB n' = true
  | YNode.scalar v, parts, n' => by
    intro _ h
    cases parts <;> simp [removeKeyFromNode] at h
  | YNode.mapping ch, [], n' => by
    intro _ h
    simp [removeKeyFromNode] at h
  | YNode.mapping ch, p :: rest, n' => by
    intro hne h
    simp only [removeKeyFromNode] at h
    cases hrp : removePairs ch p rest with
    | some tl' =>
      rw [hrp] at h
      simp only [Option.map_some', Option.some_inj] at h
      subst h
      simp only [noEmptyB]
      exact removePairs_noEmpty ch p rest tl' (by simpa [noEmptyB] using hne) hrp
    | none =>
      rw [hrp] at h
      exact Option.noConfusion h

end

mutual

theorem removePairs_wf : ∀ (ch : List (String × YNode)) (p : String) (rest : List String)
    (tl' : List (String × YNode)), wfPairs ch = true → removePairs ch p rest = some tl' →
    wfPairs tl' = true
  | [], p, rest, tl' => by
    intro _ h
    simp [removePairs] at h
  | (k, v) :: tl, p, rest, tl' => by
    intro hwf h
    simp only [wfPairs, Bool.and_eq_true] at hwf
    obtain ⟨hvwf, htlwf⟩ := hwf
    simp only [removePairs] at h
    by_cases hk : k = p
    · rw [if_pos hk] at h
      cases rest with
      | nil =>
        simp only [Option.some_inj] at h
        subst h
        exact htlwf
      | cons r rs =>
        cases hrm : removeKeyFromNode v (r :: rs) with
        | some v' =>
          simp only [hrm] at h
          have hv' : wfB v' = true := removeKeyFromNode_wf v (r :: rs) v' hvwf hrm
          cases v' with
          | scalar s =>
            simp only [Option.some_inj] at h
            subst h
            simp [wfPairs, wfB, htlwf]
          | mapping ch' =>
            cases ch' with
            | nil =>
              simp only [Option.some_inj] at h
              subst h
              exact htlwf
            | cons c cs =>
              simp only [Option.some_inj] at h
              subst h
              simp only [wfPairs, Bool.and_eq_true]
              exact ⟨hv', htlwf⟩
        | none =>
          simp only [hrm] at h
          cases hrp : removePairs tl p (r :: rs) with
          | some tl2 =>
            simp only [hrp, Option.some_inj] at h
            subst h
            simp only [wfPairs, Bool.and_eq_true]
            exact ⟨hvwf, removePairs_wf tl p (r :: rs) tl2 htlwf hrp⟩
          | none =>
            simp only [hrp] at h
            exact Option.noConfusion h
    · rw [if_neg hk] at h
      cases hrp : removePairs tl p rest with
      | some tl2 =>
        simp only [hrp, Option.some_inj] at h
        subst h
        simp only [wfPairs, Bool.and_eq_true]
        exact ⟨hvwf, removePairs_wf tl p rest tl2 htlwf hrp⟩
      | none =>
        simp only [hrp] at h
        exact Option.noConfusion h

theorem removeKeyFromNode_wf : ∀ (n : YNode) (parts : List String) (n' : YNode),
    wfB n = true → removeKeyFromNode n parts = some n' → wfB n' = true
  | YNode.scalar v, parts, n' => by
    intro _ h
    cases parts <;> simp [removeKeyFromNode] at h
  | YNode.mapping ch, [], n' => by
    intro _ h
    simp [removeKeyFromNode] at h
  | YNode.mapping ch, p :: rest, n' => by
    intro hwf h
    simp only [wfB, Bool.and_eq_true] at hwf
    obtain ⟨hnd, hpwf⟩ := hwf
    simp only [removeKeyFromNode] at h
    cases hrp : removePairs ch p rest with
    | some tl' =>
      rw [hrp] at h
      simp only [Option.map_some', Option.some_inj] at h
      subst h
      simp only [wfB, Bool.and_eq_true]
      constructor
      · rw [nodupKeysB_iff]
        exact ((removePairs_keys_sublist ch p rest tl' hrp)).nodup
          ((nodupKeysB_iff _).mp hnd)
      · exact removePairs_wf ch p rest tl' hpwf hrp
    | none =>
      rw [hrp] at h
      exact Option.noConfusion h

end

mutual

theorem removePairs_leaves : ∀ (ch : List (String × YNode)) (p : String) (rest : List String)
    (tl' : List (String × YNode)),
    wfPairs ch = true → nodupKeysB (ch.map Prod.fst) = true →
    removePairs ch p rest = some tl' →
    pairsLeaves tl' = (pairsLeaves ch).filter (fun q => !(isLeadSegs (p :: rest) q.1))
  | [], p, rest, tl' => by
    intro _ _ h
    simp [removePairs] at h
  | (k, v) :: tl, p, rest, tl' => by
    intro hwf hnd h
    simp only [wfPairs, Bool.and_eq_true] at hwf
    obtain ⟨hvwf, htlwf⟩ := hwf
    simp only [List.map_cons, nodupKeysB, Bool.and_eq_true, Bool.not_eq_true'] at hnd
    obtain ⟨hkc, htlnd⟩ := hnd
    have hknotin : k ∉ tl.map Prod.fst := by
      intro hmem
      have h2 : (tl.map Prod.fst).contains k = true := List.elem_iff.mpr hmem
      rw [h2] at hkc
      exact Bool.noConfusion hkc
    simp only [removePairs] at h
    simp only [pairsLeaves, List.filter_append]
    have htailkeep : ∀ (ps : List String), k = p →
        (pairsLeaves tl).filter (fun q => !(isLeadSegs (p :: ps) q.1)) = pairsLeaves tl := by
      intro ps hkp
      apply List.filter_eq_self.mpr
      intro q hq
      rcases pairsLeaves_head_mem tl q hq with ⟨k', hk', t, ht⟩
      have hk'p : k' ≠ p := by
        intro heq
        apply hknotin
        rw [hkp, ← heq]
        exact hk'
      rw [ht, isLeadSegs_cons, if_neg (fun hh => hk'p hh.symm)]
      rfl
    by_cases hk : k = p
    · rw [if_pos hk] at h
      cases rest with
      | nil =>
        simp only [Option.some_inj] at h
        subst h
        have hheadnil : ((leafPaths v).map (fun q => (k :: q.1, q.2))).filter
            (fun q => !(isLeadSegs (p :: ([] : List String)) q.1)) = [] := by
          apply List.filter_eq_nil_iff.mpr
          intro q hq
          rcases List.mem_map.mp hq with ⟨q', _, heq⟩
          rw [← heq]
          simp [isLeadSegs_cons, if_pos hk.symm, isLeadSegs]
        rw [hheadnil, htailkeep [] hk, List.nil_append]
      | cons r rs =>
        cases hrm : removeKeyFromNode v (r :: rs) with
        | some v' =>
          simp only [hrm] at h
          have hrec : leafPaths v' =
              (leafPaths v).filter (fun q => !(isLeadSegs (r :: rs) q.1)) :=
            removeKeyFromNode_leaves v (r :: rs) v' hvwf hrm
          have hheadeq : ((leafPaths v).map (fun q => (k :: q.1, q.2))).filter
              (fun q => !(isLeadSegs (p :: r :: rs) q.1)) =
              (leafPaths v').map (fun q => (k :: q.1, q.2)) := by
            rw [List.map_filter, hrec]
            congr 1
            apply List.filter_congr
            intro q hq
            simp only [Function.comp_apply, isLeadSegs_cons, if_pos hk.symm]
          cases v' with
          | scalar s =>
            simp only [Option.some_inj] at h
            subst h
            simp only [pairsLeaves]
            rw [hheadeq, htailkeep (r :: rs) hk]
          | mapping ch' =>
            cases ch' with
            | nil =>
              simp only [Option.some_inj] at h
              subst h
              rw [hheadeq, htailkeep (r :: rs) hk]
              simp [leafPaths, pairsLeaves]
            | cons c cs =>
              simp only [Option.some_inj] at h
              subst h
              simp only [pairsLeaves]
              rw [hheadeq, htailkeep (r :: rs) hk]
        | none =>
          simp only [hrm] at h
          cases hrp : removePairs tl p (r :: rs) with
          | some tl2 =>
            exfalso
            have hs : hasPairsB tl p (r :: rs) = true := by
              rw [← removePairs_isSome, hrp]
              rfl
            have hpm := hasPairs_key_mem tl p (r :: rs) hs
            rw [← hk] at hpm
            exact hknotin hpm
          | none =>
            simp only [hrp] at h
            exact Option.noConfusion h
    · rw [if_neg hk] at h
      cases hrp : removePairs tl p rest with
      | some tl2 =>
        simp only [hrp, Option.some_inj] at h
        subst h
        simp only [pairsLeaves]
        have hheadkeep : ((leafPaths v).map (fun q => (k :: q.1, q.2))).filter
            (fun q => !(isLeadSegs (p :: rest) q.1)) =
            (leafPaths v).map (fun q => (k :: q.1, q.2)) := by
          apply List.filter_eq_self.mpr
          intro q hq
          rcases List.mem_map.mp hq with ⟨q', _, heq⟩
          rw [← heq]
          simp only [isLeadSegs_cons]
          rw [if_neg (fun hh => hk hh.symm)]
          rfl
        rw [hheadkeep, removePairs_leaves tl p rest tl2 htlwf htlnd hrp]
      | none =>
        simp only [hrp] at h
        exact Option.noConfusion h

theorem removeKeyFromNode_leaves : ∀ (n : YNode) (parts : List String) (n' : YNode),
    wfB n = true → removeKeyFromNode n parts = some n' →
    leafPaths n' = (leafPaths n).filter (fun q => !(isLeadSegs parts q.1))
  | YNode.scalar v, parts, n' => by
    intro _ h
    cases parts <;> simp [removeKeyFromNode] at h
  | YNode.mapping ch, [], n' => by
    intro _ h
    simp [removeKeyFromNode] at h
  | YNode.mapping ch, p :: rest, n' => by
    intro hwf h
    simp only [wfB, Bool.and_eq_true] at hwf
    simp only [removeKeyFromNode] at h
    cases hrp : removePairs ch p rest with
    | some tl' =>
      rw [hrp] at h
      simp only [Option.map_some', Option.some_inj] at h
      subst h
      simp only [leafPaths]
      exact removePairs_leaves ch p rest tl' hwf.2 hwf.1 hrp
    | none =>
      rw [hrp] at h
      exact Option.noConfusion h

end

theorem hasPath_after_remove (root root' : YNode) (parts k2 : List String)
    (hwf : wfB root = true) (hne : noEmptyB root = true)
    (hrm : removeKeyFromNode root parts = some root')
    (hk2ne : k2 ≠ []) (h1 : isLeadSegs parts k2 = false) (h2 : isLeadSegs k2 parts = false) :
    hasPathB root' k2 = hasPathB root k2 := by
  have hne' : noEmptyB root' = true := removeKeyFromNode_noEmpty root parts root' hne hrm
  have hleaves := removeKeyFromNode_leaves root parts root' hwf hrm
  by_cases hp : hasPathB root k2 = true
  · rcases (hasPath_iff_leaf root k2 hne hk2ne).mp hp with ⟨q, hq, hlead⟩
    have hnotpref : isLeadSegs parts q.1 = false := by
      by_cases hx : isLeadSegs parts q.1 = true
      · rcases isLeadSegs_comparable q.1 parts k2 hx hlead with hc | hc
        · rw [hc] at h1
          exact Bool.noConfusion h1
        · rw [hc] at h2
          exact Bool.noConfusion h2
      · simpa using hx
    have hq' : q ∈ leafPaths root' := by
      rw [hleaves]
      apply List.mem_filter.mpr
      refine ⟨hq, ?_⟩
      rw [hnotpref]
      rfl
    rw [hp]
    exact (hasPath_iff_leaf root' k2 hne' hk2ne).mpr ⟨q, hq', hlead⟩
  · have hp0 : hasPathB root k2 = false := by simpa using hp
    have hp' : hasPathB root' k2 = false := by
      by_cases hx : hasPathB root' k2 = true
      · rcases (hasPath_iff_leaf root' k2 hne' hk2ne).mp hx with ⟨q, hq, hlead⟩
        rw [hleaves] at hq
        have hqr := (List.mem_filter.mp hq).1
        exact absurd ((hasPath_iff_leaf root k2 hne hk2ne).mpr ⟨q, hqr, hlead⟩)
          (by rw [hp0]; simp)
      · simpa using hx
    rw [hp', hp0]

/-- The removal loop of removeKeysFromFile: each key of the list is removed
from the current document in turn, counting the successful removals. -/
def removeKeysFold (root : YNode) : List String → Nat × YNode
  | [] => (0, root)
  | key :: rest =>
    match removeKeyFromNode root (splitDot key) with
    | some root' =>
      let pr := removeKeysFold root' rest
      (pr.1 + 1, pr.2)
    | none => removeKeysFold root rest

/-- report_remove.go removeKeysFromFile with the file system made explicit:
the count of removed keys, and `some doc` when the file is rewritten with
`doc` (a zero count writes nothing: `none`). Non-mapping documents are left
untouched with a zero count. -/
def removeKeysFromFileModel (root : YNode) (keys : List String) : Nat × Option YNode :=
  match root with
  | YNode.mapping _ =>
    let pr := removeKeysFold root keys
    if pr.1 = 0 then (0, none) else (pr.1, some pr.2)
  | _ => (0, none)

theorem removeKeysFold_count (keys : List String) : ∀ (root : YNode),
    wfB root = true → noEmptyB root = true →
    keys.Pairwise (fun a b => isLeadSegs (splitDot a) (splitDot b) = false ∧
      isLeadSegs (splitDot b) (splitDot a) = false) →
    (removeKeysFold root keys).1 =
      (keys.filter (fun k2 => hasPathB root (splitDot k2))).length := by
  induction keys with
  | nil => intro root _ _ _; rfl
  | cons key rest ih =>
    intro root hwf hne hpw
    rcases List.pairwise_cons.mp hpw with ⟨hhead, hrest⟩
    simp only [removeKeysFold]
    cases hrm : removeKeyFromNode root (splitDot key) with
    | some root' =>
      have hkp : hasPathB root (splitDot key) = true := by
        rw [← removeKeyFromNode_isSome, hrm]
        rfl
      have hwf' := removeKeyFromNode_wf root _ root' hwf hrm
      have hne' := removeKeyFromNode_noEmpty root _ root' hne hrm
      have hsame : rest.filter (fun k2 => hasPathB root' (splitDot k2)) =
          rest.filter (fun k2 => hasPathB root (splitDot k2)) := by
        apply List.filter_congr
        intro k2 hk2
        exact hasPath_after_remove root root' (splitDot key) (splitDot k2) hwf hne hrm
          (splitDot_ne_nil k2) (hhead k2 hk2).1 (hhead k2 hk2).2
      simp only [List.filter_cons, hkp, if_true]
      rw [ih root' hwf' hne' hrest, hsame]
      simp
    | none =>
      have hkp : hasPathB root (splitDot key) = false := by
        rw [← removeKeyFromNode_isSome, hrm]
        rfl
      simp only [List.filter_cons, hkp]
      simp only [Bool.false_eq_true, if_false]
      exact ih root hwf hne hrest

theorem removeKeysFold_noop (keys : List String) : ∀ (root : YNode),
    (∀ k ∈ keys, hasPathB root (splitDot k) = false) →
    removeKeysFold root keys = (0, root) := by
  induction keys with
  | nil => intro root _; rfl
  | cons key rest ih =>
    intro root hmiss
    simp only [removeKeysFold]
    cases hrm : removeKeyFromNode root (splitDot key) with
    | some root' =>
      exfalso
      have := removeKeyFromNode_isSome root (splitDot key)
      rw [hrm, hmiss key (List.mem_cons_self _ _)] at this
      exact Bool.noConfusion this
    | none =>
      exact ih root (fun k hk => hmiss k (List.mem_cons_of_mem _ hk))

/-- C4: removal follows a present path and prunes: removeKeyFromNode
succeeds exactly when the dotted path leads to an existing entry (failing
for a missing key or a non-mapping node); on success the document's leaf
paths are exactly those of the input that do not extend the removed path,
the pruning chain leaves no empty mapping anywhere below the returned
document root (the root itself is returned even if emptied, never deleted),
and removeKeysFromFile's loop returns the number of keys of the given set
actually removed — for a well-formed document and prefix-independent keys,
the number of keys whose path exists in the document. -/
theorem removeKeyFromNode_spec :
    (∀ (n : YNode) (parts : List String),
      (removeKeyFromNode n parts).isSome = hasPathB n parts)
    ∧ (∀ (n : YNode) (parts : List String) (n' : YNode), wfB n = true →
      removeKeyFromNode n parts = some n' →
      leafPaths n' = (leafPaths n).filter (fun q => !(isLeadSegs parts q.1)))
    ∧ (∀ (n : YNode) (parts : List String) (n' : YNode), noEmptyB n = true →
      removeKeyFromNode n parts = some n' → noEmptyB n' = true)
    ∧ (∀ (keys : List String) (root : YNode), wfB root = true → noEmptyB root = true →
      keys.Pairwise (fun a b => isLeadSegs (splitDot a) (splitDot b) = false ∧
        isLeadSegs (splitDot b) (splitDot a) = false) →
      (removeKeysFold root keys).1 =
        (keys.filter (fun k2 => hasPathB root (splitDot k2))).length) :=
  ⟨removeKeyFromNode_isSome, removeKeyFromNode_leaves, removeKeyFromNode_noEmpty,
   fun keys root => removeKeysFold_count keys root⟩

/-- C5: a removal invocation on a parseable document with a key set none of
whose members exists returns a zero count and does not write the file; in
general the rewrite happens exactly when the removed count is positive. -/
theorem removeKeysFromFile_frame :
    (∀ (root : YNode) (keys : List String),
      (∀ k ∈ keys, hasPathB root (splitDot k) = false) →
      removeKeysFromFileModel root keys = (0, none))
    ∧ (∀ (root : YNode) (keys : List String),
      ((removeKeysFromFileModel root keys).2 = none ↔
        (removeKeysFromFileModel root keys).1 = 0)) := by
  constructor
  · intro root keys hmiss
    cases root with
    | scalar v => rfl
    | mapping ch =>
      simp only [removeKeysFromFileModel]
      rw [removeKeysFold_noop keys (YNode.mapping ch) hmiss]
      rfl
  · intro root keys
    cases root with
    | scalar v => simp [removeKeysFromFileModel]
    | mapping ch =>
      simp only [removeKeysFromFileModel]
      by_cases hz : (removeKeysFold (YNode.mapping ch) keys).1 = 0
      · rw [if_pos hz]
        simp [hz]
      · rw [if_neg hz]
        simp [hz]

/-! ## Dynamic key patterns (repo.go): template splitting and the matcher -/

/-- The `segmentWildcard` character class `[a-zA-Z0-9_-]`. -/
def isSegChar (c : Char) : Bool :=
  (decide ('a' ≤ c) && decide (c ≤ 'z')) || (decide ('A' ≤ c) && decide (c ≤ 'Z')) ||
  (decide ('0' ≤ c) && decide (c ≤ '9')) || c = '_' || c = '-'

/-- One element of the compiled key regex: a literal fragment (QuoteMeta of a
template part) or the segment wildcard `[a-zA-Z0-9_-]+`. -/
inductive RElem where
  | lit (s : String) : RElem
  | seg : RElem

/-- Backtracking scan for the `+`-repetition of the segment wildcard: consume
one segment character, then either hand over to the continuation or keep
consuming. -/
def segScan (f : List Char → Bool) : List Char → Bool
  | [] => false
  | c :: cs => isSegChar c && (f cs || segScan f cs)

/-- The anchored matcher of the compiled pattern
`^ lit₀ wildcard lit₁ wildcard … litₙ $`. -/
def matchElems : List RElem → List Char → Bool
  | [], cs => cs.isEmpty
  | RElem.lit s :: rest, cs =>
    if leadChars s.data cs then matchElems rest (cs.drop s.data.length) else false
  | RElem.seg :: rest, cs => segScan (matchElems rest) cs

/-- Skip to just after the first `}` (the end of `[^}]+\}` matching). -/
def scanClose : List Char → Option (List Char)
  | [] => none
  | c :: tl => if c = '}' then some tl else scanClose tl

/-- After `${`, recognise `[^}]+\}`: at least one non-`}` character, then the
closing brace; returns the remainder. -/
def interpEnd : List Char → Option (List Char)
  | [] => none
  | c :: tl => if c = '}' then none else scanClose tl

theorem scanClose_length : ∀ (l rem : List Char), scanClose l = some rem →
    rem.length < l.length := by
  intro l
  induction l with
  | nil => intro rem h; simp [scanClose] at h
  | cons c tl ih =>
    intro rem h
    simp only [scanClose] at h
    by_cases hc : c = '}'
    · rw [if_pos hc, Option.some_inj] at h
      subst h
      simp
    · rw [if_neg hc] at h
      have := ih rem h
      simp
      omega

theorem interpEnd_length : ∀ (l rem : List Char), interpEnd l = some rem →
    rem.length < l.length := by
  intro l rem h
  cases l with
  | nil => simp [interpEnd] at h
  | cons c tl =>
    simp only [interpEnd] at h
    by_cases hc : c = '}'
    · rw [if_pos hc] at h
      exact Option.noConfusion h
    · rw [if_neg hc] at h
      have := scanClose_length tl rem h
      simp
      omega

/-- The split of a template on `\$\{[^}]+\}` occurrences (Go
`interpolationSplit.Split(template, -1)`), with an explicit fuel argument so
that the recursion is structural; `splitInterp` supplies adequate fuel and
`splitInterpGo_fuel` shows the result does not depend on it. -/
def splitInterpGo : Nat → List Char → List Char → List (List Char)
  | _, [], acc => [acc.reverse]
  | 0, cs, acc => [acc.reverse ++ cs]
  | Nat.succ f, [c], acc => splitInterpGo f [] (c :: acc)
  | Nat.succ f, c :: c2 :: rest, acc =>
    if c = '$' ∧ c2 = '{' then
      match interpEnd rest with
      | some rem => acc.reverse :: splitInterpGo f rem []
      | none => splitInterpGo f (c2 :: rest) (c :: acc)
    else splitInterpGo f (c2 :: rest) (c :: acc)

theorem splitInterpGo_fuel : ∀ (f : Nat) (cs acc : List Char) (f2 : Nat),
    cs.length ≤ f → cs.length ≤ f2 →
    splitInterpGo f cs acc = splitInterpGo f2 cs acc := by
  intro f
  induction f with
  | zero =>
    intro cs acc f2 hf _
    cases cs with
    | nil => cases f2 <;> rfl
    | cons c cs => simp at hf
  | succ f ih =>
    intro cs acc f2 hf hf2
    cases cs with
    | nil => cases f2 <;> rfl
    | cons c cs =>
      cases f2 with
      | zero => simp at hf2
      | succ f3 =>
        cases cs with
        | nil =>
          show splitInterpGo f [] (c :: acc) = splitInterpGo f3 [] (c :: acc)
          exact ih [] (c :: acc) f3 (by simp) (by simp)
        | cons c2 rest =>
          simp only [splitInterpGo]
          simp only [List.length_cons] at hf hf2
          by_cases hcc : c = '$' ∧ c2 = '{'
          · rw [if_pos hcc, if_pos hcc]
            cases hie : interpEnd rest with
            | some rem =>
              have hlen := interpEnd_length rest rem hie
              simp only [hie]
              rw [ih rem [] f3 (by omega) (by omega)]
            | none =>
              simp only [hie]
              exact ih (c2 :: rest) (c :: acc) f3 (by simp; omega) (by simp; omega)
          · rw [if_neg hcc, if_neg hcc]
            exact ih (c2 :: rest) (c :: acc) f3 (by simp; omega) (by simp; omega)

/-- `interpolationSplit.Split(template, -1)`: the literal fragments of a
template around its `${...}` interpolations. -/
def splitInterp (t : String) : List String :=
  (splitInterpGo t.data.length t.data []).map String.mk

theorem splitInterpGo_ne_nil : ∀ (f : Nat) (cs acc : List Char),
    splitInterpGo f cs acc ≠ [] := by
  intro f
  induction f with
  | zero =>
    intro cs acc
    cases cs <;> simp [splitInterpGo]
  | succ f ih =>
    intro cs acc
    cases cs with
    | nil => simp [splitInterpGo]
    | cons c cs =>
      cases cs with
      | nil =>
        show splitInterpGo f [] (c :: acc) ≠ []
        exact ih [] (c :: acc)
      | cons c2 rest =>
        simp only [splitInterpGo]
        by_cases hcc : c = '$' ∧ c2 = '{'
        · rw [if_pos hcc]
          cases hie : interpEnd rest with
          | some rem => simp
          | none =>
            simp only [hie]
            exact ih (c2 :: rest) (c :: acc)
        · rw [if_neg hcc]
          exact ih (c2 :: rest) (c :: acc)

theorem splitInterp_ne_nil (t : String) : splitInterp t ≠ [] := by
  simp only [splitInterp, ne_eq, List.map_eq_nil_iff]
  exact splitInterpGo_ne_nil t.data.length t.data []

/-- repo.go templateToKeyRegex, as the abstract syntax of the regex it
compiles: the split's literal fragments (QuoteMeta makes them literal)
interleaved with the segment wildcard, anchored on both sides.  The
`nil`-on-compile-error branch is shown unreachable separately. -/
def regexElems : List String → List RElem
  | [] => []
  | [p] => [RElem.lit p]
  | p :: rest => RElem.lit p :: RElem.seg :: regexElems rest

def templateToKeyRegex (t : String) : List RElem := regexElems (splitInterp t)

theorem leadChars_iff : ∀ (a b : List Char), leadChars a b = true ↔ ∃ t, b = a ++ t := by
  intro a
  induction a with
  | nil =>
    intro b
    simp [leadChars]
  | cons x xs ih =>
    intro b
    cases b with
    | nil =>
      simp only [leadChars]
      constructor
      · intro h; exact Bool.noConfusion h
      · rintro ⟨t, ht⟩; exact List.noConfusion ht
    | cons y ys =>
      simp only [leadChars]
      by_cases hxy : x = y
      · rw [if_pos hxy]
        rw [ih ys]
        constructor
        · rintro ⟨t, ht⟩
          exact ⟨t, by rw [hxy, ht]; rfl⟩
        · rintro ⟨t, ht⟩
          rcases List.cons.injEq .. ▸ ht with ht
          simp only [List.cons_append, List.cons.injEq] at ht
          exact ⟨t, ht.2⟩
      · rw [if_neg hxy]
        constructor
        · intro h; exact Bool.noConfusion h
        · rintro ⟨t, ht⟩
          simp only [List.cons_append, List.cons.injEq] at ht
          exact absurd ht.1.symm hxy

theorem leadChars_append (a t : List Char) : leadChars a (a ++ t) = true :=
  (leadChars_iff a (a ++ t)).mpr ⟨t, rfl⟩

/-- The language of an element list: the key decomposes into the literal
fragments with one non-empty run of segment characters per wildcard. -/
inductive ElemsLang : List RElem → List Char → Prop where
  | nil : ElemsLang [] []
  | lit (s : String) (rest : List RElem) (tl : List Char) :
      ElemsLang rest tl → ElemsLang (RElem.lit s :: rest) (s.data ++ tl)
  | seg (w : List Char) (rest : List RElem) (tl : List Char) :
      w ≠ [] → (∀ c ∈ w, isSegChar c = true) → ElemsLang rest tl →
      ElemsLang (RElem.seg :: rest) (w ++ tl)

theorem segScan_iff (f : List Char → Bool) (P : List Char → Prop)
    (hf : ∀ cs, f cs = true ↔ P cs) :
    ∀ cs, segScan f cs = true ↔
      ∃ w tl, w ≠ [] ∧ (∀ c ∈ w, isSegChar c = true) ∧ cs = w ++ tl ∧ P tl := by
  intro cs
  induction cs with
  | nil =>
    simp only [segScan]
    constructor
    · intro h; exact Bool.noConfusion h
    · rintro ⟨w, tl, hw, _, heq, _⟩
      cases w with
      | nil => exact absurd rfl hw
      | cons c cs => exact List.noConfusion heq
  | cons c cs ih =>
    simp only [segScan, Bool.and_eq_true, Bool.or_eq_true]
    constructor
    · rintro ⟨hc, h | h⟩
      · exact ⟨[c], cs, by simp, by simpa using hc, rfl, (hf cs).mp h⟩
      · rcases ih.mp h with ⟨w, tl, hw, hseg, heq, hP⟩
        refine ⟨c :: w, tl, by simp, ?_, by simp [heq], hP⟩
        intro x hx
        rcases List.mem_cons.mp hx with hx | hx
        · rw [hx]; exact hc
        · exact hseg x hx
    · rintro ⟨w, tl, hw, hseg, heq, hP⟩
      cases w with
      | nil => exact absurd rfl hw
      | cons w0 ws =>
        simp only [List.cons_append, List.cons.injEq] at heq
        obtain ⟨hw0, hcs⟩ := heq
        refine ⟨by rw [hw0]; exact hseg w0 (List.mem_cons_self _ _), ?_⟩
        cases ws with
        | nil =>
          left
          rw [List.nil_append] at hcs
          rw [hcs]
          exact (hf tl).mpr hP
        | cons w1 ws' =>
          right
          apply ih.mpr
          refine ⟨w1 :: ws', tl, by simp, ?_, hcs, hP⟩
          intro x hx
          exact hseg x (List.mem_cons_of_mem _ hx)

theorem matchElems_iff : ∀ (el : List RElem) (cs : List Char),
    matchElems el cs = true ↔ ElemsLang el cs := by
  intro el
  induction el with
  | nil =>
    intro cs
    simp only [matchElems, List.isEmpty_iff]
    constructor
    · intro h; rw [h]; exact ElemsLang.nil
    · intro h; cases h; rfl
  | cons e rest ih =>
    intro cs
    cases e with
    | lit s =>
      simp only [matchElems]
      constructor
      · intro h
        by_cases hl : leadChars s.data cs = true
        · rw [if_pos hl] at h
          rcases (leadChars_iff s.data cs).mp hl with ⟨t, ht⟩
          subst ht
          rw [List.drop_left] at h
          exact ElemsLang.lit s rest t ((ih t).mp h)
        · rw [if_neg hl] at h
          exact Bool.noConfusion h
      · intro h
        cases h with
        | lit _ _ tl htl =>
          rw [if_pos (leadChars_append s.data tl), List.drop_left]
          exact (ih tl).mpr htl
    | seg =>
      simp only [matchElems]
      rw [segScan_iff (matchElems rest) (ElemsLang rest) ih cs]
      constructor
      · rintro ⟨w, tl, hw, hseg, heq, hP⟩
        rw [heq]
        exact ElemsLang.seg w rest tl hw hseg hP
      · intro h
        cases h with
        | seg w _ tl hw hseg htl => exact ⟨w, tl, hw, hseg, rfl, htl⟩

/-- The decomposition of a key along the template's fragments: fragment 0,
one wildcard-run, fragment 1, … , final fragment. -/
def interleaveKey : List String → List (List Char) → List Char
  | [], _ => []
  | p :: _, [] => p.data
  | p :: rest, w :: ws => p.data ++ w ++ interleaveKey rest ws

theorem elemsLang_regexElems : ∀ (parts : List String), parts ≠ [] → ∀ (cs : List Char),
    (ElemsLang (regexElems parts) cs ↔
      ∃ ws : List (List Char), ws.length + 1 = parts.length ∧
        (∀ w ∈ ws, w ≠ [] ∧ ∀ c ∈ w, isSegChar c = true) ∧
        cs = interleaveKey parts ws) := by
  intro parts
  induction parts with
  | nil => intro h; exact absurd rfl h
  | cons p rest ih =>
    intro _ cs
    cases rest with
    | nil =>
      show ElemsLang [RElem.lit p] cs ↔ _
      constructor
      · intro h
        cases h with
        | lit _ _ tl htl =>
          cases htl
          refine ⟨[], rfl, by simp, ?_⟩
          show p.data ++ [] = interleaveKey [p] []
          rw [List.append_nil]
          rfl
      · rintro ⟨ws, hlen, _, heq⟩
        cases ws with
        | nil =>
          have hcs : cs = p.data := heq
          rw [hcs, ← List.append_nil p.data]
          exact ElemsLang.lit p [] [] ElemsLang.nil
        | cons w ws' => simp at hlen
    | cons q rest' =>
      show ElemsLang (RElem.lit p :: RElem.seg :: regexElems (q :: rest')) cs ↔ _
      constructor
      · intro h
        cases h with
        | lit _ _ tl htl =>
          cases htl with
          | seg w _ tl' hw hsegc htl' =>
            rcases (ih (by simp) tl').mp htl' with ⟨ws', hlen, hseg', heq'⟩
            refine ⟨w :: ws', by simpa using hlen, ?_, ?_⟩
            · intro x hx
              rcases List.mem_cons.mp hx with hx | hx
              · rw [hx]; exact ⟨hw, hsegc⟩
              · exact hseg' x hx
            · show p.data ++ (w ++ tl') = interleaveKey (p :: q :: rest') (w :: ws')
              rw [heq']
              show p.data ++ (w ++ interleaveKey (q :: rest') ws') =
                p.data ++ w ++ interleaveKey (q :: rest') ws'
              rw [List.append_assoc]
      · rintro ⟨ws, hlen, hseg, heq⟩
        cases ws with
        | nil => simp at hlen
        | cons w ws' =>
          have heq' : cs = p.data ++ (w ++ interleaveKey (q :: rest') ws') := by
            rw [heq]
            show p.data ++ w ++ interleaveKey (q :: rest') ws' = _
            rw [List.append_assoc]
          rw [heq']
          apply ElemsLang.lit
          apply ElemsLang.seg
          · exact (hseg w (List.mem_cons_self _ _)).1
          · exact (hseg w (List.mem_cons_self _ _)).2
          · apply (ih (by simp) _).mpr
            refine ⟨ws', by simpa using hlen, ?_, rfl⟩
            intro x hx
            exact hseg x (List.mem_cons_of_mem _ hx)

/-- C1: for every template with at least one interpolation, the matcher
accepts a key exactly when the key decomposes as fragment 0, then for each
interpolation one non-empty run of characters from `[A-Za-z0-9_-]` (never a
dot, never empty, never more than one path segment), then the next literal
fragment, ending exactly at the final fragment; in particular
`asyncButton.${mode}.${phase}Icon` accepts `asyncButton.edit.actionIcon`
but rejects `asyncButton.edit.action`, and
`containerEngine.options.${x}.label` rejects `containerEngine.options.label`
and `containerEngine.label`. -/
theorem templateToKeyRegex_spec :
    (∀ (t : String) (key : String), 2 ≤ (splitInterp t).length →
      (matchElems (templateToKeyRegex t) key.data = true ↔
        ∃ ws : List (List Char), ws.length + 1 = (splitInterp t).length ∧
          (∀ w ∈ ws, w ≠ [] ∧ ∀ c ∈ w, isSegChar c = true) ∧
          key.data = interleaveKey (splitInterp t) ws))
    ∧ matchElems (templateToKeyRegex "asyncButton.${mode}.${phase}Icon")
        "asyncButton.edit.actionIcon".data = true
    ∧ matchElems (templateToKeyRegex "asyncButton.${mode}.${phase}Icon")
        "asyncButton.edit.action".data = false
    ∧ matchElems (templateToKeyRegex "containerEngine.options.${x}.label")
        "containerEngine.options.moby.label".data = true
    ∧ matchElems (templateToKeyRegex "containerEngine.options.${x}.label")
        "containerEngine.options.label".data = false
    ∧ matchElems (templateToKeyRegex "containerEngine.options.${x}.label")
        "containerEngine.label".data = false := by
  refine ⟨?_, by decide, by decide, by decide, by decide, by decide⟩
  intro t key hlen
  rw [matchElems_iff]
  exact elemsLang_regexElems (splitInterp t) (splitInterp_ne_nil t) key.data

/-! ## The assembled pattern always compiles (repo.go templateToKeyRegex) -/

/-- The characters Go's `regexp.QuoteMeta` escapes. -/
def isSpecialRe (c : Char) : Bool :=
  c = '\\' || c = '.' || c = '+' || c = '*' || c = '?' || c = '(' || c = ')' ||
  c = '|' || c = '[' || c = ']' || c = '{' || c = '}' || c = '^' || c = '$'

def qmChars (l : List Char) : List Char :=
  l.flatMap (fun c => if isSpecialRe c then ['\\', c] else [c])

/-- `regexp.QuoteMeta`. -/
def quoteMeta (s : String) : String := String.mk (qmChars s.data)

def segmentWildcardStr : String := "[a-zA-Z0-9_-]+"

def wildcardChars : List Char := segmentWildcardStr.data

/-- The pattern text templateToKeyRegex assembles from the split fragments:
QuoteMeta-escaped fragments joined by the fixed segment wildcard. -/
def patternBody : List String → String
  | [] => ""
  | [p] => quoteMeta p
  | p :: rest => quoteMeta p ++ segmentWildcardStr ++ patternBody rest

def assemblePattern (parts : List String) : String := "^" ++ patternBody parts ++ "$"

/-- Parses one literal run of the pattern fragment syntax QuoteMeta emits:
escaped characters decode to themselves, unescaped `[` or `$` end the run,
any other unescaped special character is refused. -/
def parseLit : List Char → Option (List Char × List Char)
  | [] => some ([], [])
  | c :: tl =>
    if c = '\\' then
      match tl with
      | [] => none
      | c2 :: tl' => (parseLit tl').map (fun pr => (c2 :: pr.1, pr.2))
    else if c = '[' ∨ c = '$' then some ([], c :: tl)
    else if isSpecialRe c then none
    else (parseLit tl).map (fun pr => (c :: pr.1, pr.2))

theorem parseLit_rem_le (cs lit rem : List Char) (h : parseLit cs = some (lit, rem)) :
    rem.length ≤ cs.length := by
  have main : ∀ (n : Nat) (cs lit rem : List Char), cs.length ≤ n →
      parseLit cs = some (lit, rem) → rem.length ≤ cs.length := by
    intro n
    induction n with
    | zero =>
      intro cs lit rem hn h
      cases cs with
      | nil =>
        simp only [parseLit, Option.some_inj] at h
        cases h
        simp
      | cons c tl => simp at hn
    | succ n ih =>
      intro cs lit rem hn h
      cases cs with
      | nil =>
        simp only [parseLit, Option.some_inj] at h
        cases h
        simp
      | cons c tl =>
        simp only [List.length_cons] at hn
        cases tl with
        | nil =>
          simp only [parseLit] at h
          by_cases hc : c = '\\'
          · rw [if_pos hc] at h
            exact Option.noConfusion h
          · rw [if_neg hc] at h
            by_cases hstop : c = '[' ∨ c = '$'
            · rw [if_pos hstop] at h
              simp only [Option.some_inj] at h
              cases h
              simp
            · rw [if_neg hstop] at h
              by_cases hspec : isSpecialRe c = true
              · rw [if_pos hspec] at h
                exact Option.noConfusion h
              · rw [if_neg hspec] at h
                simp only [parseLit, Option.map_some', Option.some_inj] at h
                cases h
                simp
        | cons c2 tl2 =>
          simp only [parseLit] at h
          by_cases hc : c = '\\'
          · rw [if_pos hc] at h
            cases hp : parseLit tl2 with
            | some pr =>
              obtain ⟨l2, r2⟩ := pr
              rw [hp] at h
              simp only [Option.map_some', Option.some_inj] at h
              have hlen := ih tl2 l2 r2 (by simp at hn ⊢; omega) hp
              cases h
              simp at hlen ⊢
              omega
            | none =>
              rw [hp] at h
              exact Option.noConfusion h
          · rw [if_neg hc] at h
            by_cases hstop : c = '[' ∨ c = '$'
            · rw [if_pos hstop] at h
              simp only [Option.some_inj] at h
              cases h
              simp
            · rw [if_neg hstop] at h
              by_cases hspec : isSpecialRe c = true
              · rw [if_pos hspec] at h
                exact Option.noConfusion h
              · rw [if_neg hspec] at h
                cases hp : parseLit (c2 :: tl2) with
                | some pr =>
                  obtain ⟨l2, r2⟩ := pr
                  rw [hp] at h
                  simp only [Option.map_some', Option.some_inj] at h
                  have hlen := ih (c2 :: tl2) l2 r2 (by simp at hn ⊢; omega) hp
                  cases h
                  simp at hlen ⊢
                  omega
                | none =>
                  rw [hp] at h
                  exact Option.noConfusion h
  exact main cs.length cs lit rem le_rfl h

theorem leadChars_le_length : ∀ (a b : List Char), leadChars a b = true → a.length ≤ b.length := by
  intro a b h
  rcases (leadChars_iff a b).mp h with ⟨t, ht⟩
  rw [ht]
  simp

/-- Parses the whole assembled pattern body: alternating literal runs and
occurrences of the fixed wildcard class, ending at the `$` anchor. -/
def parseSeq (cs : List Char) : Option (List RElem) :=
  match h : parseLit cs with
  | none => none
  | some (lit, rem) =>
    if rem = ['$'] then some [RElem.lit (String.mk lit)]
    else if hw : leadChars wildcardChars rem = true then
      match parseSeq (rem.drop wildcardChars.length) with
      | some els => some (RElem.lit (String.mk lit) :: RElem.seg :: els)
      | none => none
    else none
termination_by cs.length
decreasing_by
  have hle := parseLit_rem_le cs lit rem h
  have hwl := leadChars_le_length wildcardChars rem hw
  have : wildcardChars.length = 14 := by decide
  simp [List.length_drop]
  omega

/-- The compile step: an anchored pattern is accepted when its body parses.
Models `regexp.Compile` on the fragment of regex syntax templateToKeyRegex
emits (a parse failure is `none`, the `nil` return). -/
def compilePattern (p : String) : Option (List RElem) :=
  match p.data with
  | c :: body => if c = '^' then parseSeq body else none
  | [] => none

theorem parseLit_qm : ∀ (pd rem : List Char),
    (rem = [] ∨ ∃ c t, rem = c :: t ∧ (c = '[' ∨ c = '$')) →
    parseLit (qmChars pd ++ rem) = some (pd, rem) := by
  intro pd
  induction pd with
  | nil =>
    intro rem hrem
    rcases hrem with h | ⟨c, t, heq, hc⟩
    · subst h; rfl
    · subst heq
      simp only [qmChars, List.flatMap_nil, List.nil_append]
      cases t with
      | nil =>
        simp only [parseLit]
        have hc1 : c ≠ '\\' := by rcases hc with h | h <;> subst h <;> decide
        rw [if_neg hc1, if_pos hc]
      | cons c2 t2 =>
        simp only [parseLit]
        have hc1 : c ≠ '\\' := by rcases hc with h | h <;> subst h <;> decide
        rw [if_neg hc1, if_pos hc]
  | cons c pd ih =>
    intro rem hrem
    by_cases hs : isSpecialRe c = true
    · have hq : qmChars (c :: pd) = '\\' :: c :: qmChars pd := by
        simp [qmChars, hs]
      rw [hq]
      have hbody : parseLit ('\\' :: c :: (qmChars pd ++ rem))
          = (parseLit (qmChars pd ++ rem)).map (fun pr => (c :: pr.1, pr.2)) := by
        cases hqr : qmChars pd ++ rem with
        | nil => simp [parseLit]
        | cons d dl => simp [parseLit]
      rw [List.cons_append, List.cons_append, hbody, ih rem hrem]
      rfl
    · have hq : qmChars (c :: pd) = c :: qmChars pd := by
        simp [qmChars, hs]
      rw [hq]
      have hc1 : c ≠ '\\' := by intro h; subst h; exact hs (by decide)
      have hc2 : ¬(c = '[' ∨ c = '$') := by
        intro h; rcases h with h | h <;> subst h <;> exact hs (by decide)
      have hbody : parseLit (c :: (qmChars pd ++ rem))
          = (parseLit (qmChars pd ++ rem)).map (fun pr => (c :: pr.1, pr.2)) := by
        cases hqr : qmChars pd ++ rem with
        | nil => simp [parseLit, hc1, hc2, hs]
        | cons d dl => simp [parseLit, hc1, hc2, hs]
      rw [List.cons_append, hbody, ih rem hrem]
      rfl

theorem parseSeq_pattern : ∀ (parts : List String), parts ≠ [] →
    parseSeq ((patternBody parts).data ++ ['$']) = some (regexElems parts) := by
  intro parts
  induction parts with
  | nil => intro h; exact absurd rfl h
  | cons p rest ih =>
    intro _
    cases rest with
    | nil =>
      have hp := parseLit_qm p.data ['$'] (Or.inr ⟨'$', [], rfl, Or.inr rfl⟩)
      show parseSeq (qmChars p.data ++ ['$']) = some (regexElems [p])
      unfold parseSeq
      split
      · rename_i heq
        rw [hp] at heq
        exact Option.noConfusion heq
      · rename_i lit rem heq
        rw [hp] at heq
        simp only [Option.some_inj, Prod.mk.injEq] at heq
        obtain ⟨h1, h2⟩ := heq
        subst h1
        subst h2
        rw [if_pos rfl]
        rfl
    | cons q rest2 =>
      have hdata : (patternBody (p :: q :: rest2)).data ++ ['$']
          = qmChars p.data ++ (wildcardChars ++ ((patternBody (q :: rest2)).data ++ ['$'])) := by
        show ((qmChars p.data ++ wildcardChars) ++ (patternBody (q :: rest2)).data) ++ ['$'] = _
        simp [List.append_assoc]
      rw [hdata]
      have hp := parseLit_qm p.data (wildcardChars ++ ((patternBody (q :: rest2)).data ++ ['$']))
        (Or.inr ⟨'[', wildcardChars.tail ++ ((patternBody (q :: rest2)).data ++ ['$']),
          by rw [show wildcardChars = '[' :: wildcardChars.tail from by decide]; rfl, Or.inl rfl⟩)
      unfold parseSeq
      split
      · rename_i heq
        rw [hp] at heq
        exact Option.noConfusion heq
      · rename_i lit rem heq
        rw [hp] at heq
        simp only [Option.some_inj, Prod.mk.injEq] at heq
        obtain ⟨h1, h2⟩ := heq
        subst h1
        subst h2
        have hne : wildcardChars ++ ((patternBody (q :: rest2)).data ++ ['$']) ≠ ['$'] := by
          intro hcontra
          have hlen := congrArg List.length hcontra
          have hl : wildcardChars.length = 14 := by decide
          simp [hl] at hlen
          omega
        rw [if_neg hne, dif_pos (leadChars_append wildcardChars _), List.drop_left,
          ih (by simp)]
        rfl

/-- C9: `templateToKeyRegex` never returns nil: for every template string,
compiling the anchored pattern it assembles (QuoteMeta-escaped literal
fragments joined by the fixed segment wildcard) succeeds, yielding exactly
the matcher `templateToKeyRegex`, so the nil-returning error branch is
unreachable and every template yields a usable matcher. -/
theorem templateToKeyRegex_never_nil (t : String) :
    compilePattern (assemblePattern (splitInterp t)) = some (templateToKeyRegex t) := by
  have hmain := parseSeq_pattern (splitInterp t) (splitInterp_ne_nil t)
  have hdata : (assemblePattern (splitInterp t)).data
      = '^' :: ((patternBody (splitInterp t)).data ++ ['$']) := rfl
  unfold compilePattern
  rw [hdata]
  simpa [templateToKeyRegex] using hmain

/-! ## extractTranslationText (report_merge.go): input-format detection -/

/-- ASCII whitespace trimmed by `strings.TrimSpace` on this input class. -/
def isSpaceCh (c : Char) : Bool :=
  c = ' ' || c = '\t' || c = '\n' || c = '\x0b' || c = '\x0c' || c = '\r'

/-- `strings.TrimSpace`. -/
def trimSpace (s : String) : String :=
  String.mk (((s.data.dropWhile isSpaceCh).reverse.dropWhile isSpaceCh).reverse)

/-- A decoded content block of an agent JSONL message (`{type, text}`). -/
structure JsonBlock where
  bType : String
  text : String
  deriving DecidableEq

/-- A decoded agent message: its role, and its content decoded as a block
list when that inner decode succeeds. -/
structure AgentMsg where
  role : String
  blocks : Option (List JsonBlock)
  deriving DecidableEq

/-- The text a single decoded message contributes: each `text`-typed block
followed by a newline, and only for `assistant` messages. -/
def msgText (m : AgentMsg) : String :=
  if m.role = "assistant" then
    match m.blocks with
    | some bs =>
      String.join (bs.map (fun b => if b.bType = "text" then b.text ++ "\n" else ""))
    | none => ""
  else ""

/-- The JSONL loop body for one raw line: trim, skip unless the line starts
with a brace, decode (a failed `json.Unmarshal` is `none`), keep assistant
text blocks. -/
def lineText (decode : String → Option AgentMsg) (line : String) : String :=
  let t := trimSpace line
  match t.data with
  | [] => ""
  | c :: _ =>
    if c = '{' then
      match decode t with
      | some m => msgText m
      | none => ""
    else ""

/-- The JSONL extraction stage of extractTranslationText. -/
def jsonlExtract (decode : String → Option AgentMsg) (content : String) : String :=
  String.join ((splitNl content).map (lineText decode))

/-- The fence scan: lines between a trimmed fence opener and closer are
kept verbatim (untrimmed) with a newline each. -/
def fenceLoop : List String → Bool → String
  | [], _ => ""
  | line :: rest, inFence =>
    let trimmed := trimSpace line
    if trimmed = "```yaml" then fenceLoop rest true
    else if trimmed = "```" ∧ inFence then fenceLoop rest false
    else if inFence then line ++ "\n" ++ fenceLoop rest inFence
    else fenceLoop rest inFence

/-- The fence-extraction stage: applied when the opener occurs anywhere in
the text, and kept only when it extracted something. -/
def fenceStage (content : String) : String :=
  if containsSub content.data "```yaml".data then
    let extracted := fenceLoop (splitNl content) false
    if extracted.data.length > 0 then extracted else content
  else content

/-- The detection line of extractTranslationText: the text before the first
newline, trimmed — but the whole content, untrimmed, when there is none. -/
def firstPhysLine (content : String) : String :=
  if content.data.contains '\n' then
    trimSpace (String.mk (content.data.takeWhile (fun c => ¬ c = '\n')))
  else content

/-- extractTranslationText: JSONL extraction when the detection line starts
with a brace, then the fence stage on the (possibly replaced) content. -/
def extractTranslationText (decode : String → Option AgentMsg) (content : String) : String :=
  let content1 :=
    match (firstPhysLine content).data with
    | c :: _ => if c = '{' then jsonlExtract decode content else content
    | [] => content
  fenceStage content1

/-- Modelled from the spec: the first non-blank line of the input (trimmed),
the line the spec's detection rule examines. -/
def firstNonBlankLine (content : String) : Option String :=
  ((splitNl content).map trimSpace).find? (fun l => decide (l ≠ ""))

/-- A concrete decoder for the demonstration: one assistant message with a
plain text block, and one whose text carries an embedded yaml fence. -/
def demoDecode (line : String) : Option AgentMsg :=
  if line = "{m}" then some ⟨"assistant", some [⟨"text", "tray.a: b"⟩]⟩
  else if line = "{f}" then
    some ⟨"assistant", some [⟨"text", "```yaml\ntray.b: c\n```"⟩]⟩
  else none

/-- C6: refuted as stated — the detection examines only the first physical
line, not the first non-blank line.  For the input starting with a blank
line, the first non-blank line is a brace-opened JSONL record, yet
extractTranslationText skips the JSONL stage and returns the input
unchanged, differing from the fence-after-JSONL pipeline the claim
describes.  When the brace does open the first physical line the pipeline
behaves as claimed: assistant text blocks are kept, and the fence stage
runs on the JSONL-extracted text (the embedded-fence input). -/
theorem extractTranslationText_first_line_bug :
    (∃ l, firstNonBlankLine "\n{m}" = some l ∧ l.data.headD ' ' = '{') ∧
    extractTranslationText demoDecode "\n{m}" = "\n{m}" ∧
    extractTranslationText demoDecode "\n{m}" ≠ fenceStage (jsonlExtract demoDecode "\n{m}") ∧
    extractTranslationText demoDecode "{m}" = "tray.a: b\n" ∧
    extractTranslationText demoDecode "{f}" = "tray.b: c\n" :=
  ⟨⟨"{m}", by decide, by decide⟩, by decide, by decide, by decide, by decide⟩
